import Mathlib

/-!
Verification of the Easy-Mode command transformer of the Markdown-to-HTML
converter (`src/script.js`).  The transformer is embedded shallowly over
`List Char` (a JS string): each JS regular expression of the rule table is
hand-compiled to an executable matcher with the same backtracking semantics,
and the per-line dispatch loop, the canonical-syntax detector
`isAlreadyMarkdown`, and the conversion log are reproduced faithfully.
The instance field `this.conversionLog`, which survives between calls, is
threaded through `transformEasySyntaxToMarkdown` as an explicit argument.
-/

namespace Md2Html

/-- JS whitespace (the class `\s`, also used by `String.prototype.trim`). -/
def isJsWs (c : Char) : Bool :=
  decide (c = '\t' ∨ c = '\n' ∨ c = '\x0B' ∨ c = '\x0C' ∨ c = '\r' ∨ c = ' ' ∨
    c = '\u00A0' ∨ c = '\u1680' ∨ ('\u2000' ≤ c ∧ c ≤ '\u200A') ∨
    c = '\u2028' ∨ c = '\u2029' ∨ c = '\u202F' ∨ c = '\u205F' ∨ c = '\u3000' ∨ c = '\uFEFF')

/-- Characters matched by the JS regex `.` (no `s` flag): anything except a
line terminator. -/
def isDotChar (c : Char) : Bool :=
  decide (c ≠ '\n' ∧ c ≠ '\r' ∧ c ≠ '\u2028' ∧ c ≠ '\u2029')

/-- The JS regex class `\d`. -/
def jsDigit (c : Char) : Bool := decide ('0' ≤ c ∧ c ≤ '9')

/-- The JS regex word-character class (used by `\b`). -/
def isWordChar (c : Char) : Bool :=
  decide (('a' ≤ c ∧ c ≤ 'z') ∨ ('A' ≤ c ∧ c ≤ 'Z') ∨ ('0' ≤ c ∧ c ≤ '9') ∨ c = '_')

/-- `String.prototype.trimEnd`. -/
def jsTrimEnd (l : List Char) : List Char := (l.reverse.dropWhile isJsWs).reverse

/-- `String.prototype.trim`. -/
def jsTrim (l : List Char) : List Char := jsTrimEnd (l.dropWhile isJsWs)

/-- The ASCII upper-case partner of a lower-case pattern letter; identity on
everything else (JS case-insensitive canonicalisation, restricted to the
ASCII pattern characters the rule table actually uses). -/
def upcase (p : Char) : Char :=
  if 'a' ≤ p ∧ p ≤ 'z' then Char.ofNat (p.toNat - 32) else p

/-- Case-insensitive match of an input character `c` against the (lower-case
or non-letter) pattern character `p`, as performed by the `i` regex flag. -/
def ciMatch (p c : Char) : Bool := c = p || c = upcase p

/-- Strip a case-insensitive literal pattern from the head of the input,
returning the remaining suffix. -/
def stripCI : List Char → List Char → Option (List Char)
  | [], l => some l
  | _ :: _, [] => none
  | p :: ps, c :: cs => if ciMatch p c then stripCI ps cs else none

/-- All decompositions `l = u ++ pat ++ v`, in left-to-right order of the
occurrence of `pat`; used to express the existential semantics of an
unanchored regex fragment. -/
def occs (pat : List Char) : List Char → List (List Char × List Char)
  | [] => if pat.isPrefixOf ([] : List Char) then [(([] : List Char), ([] : List Char))] else []
  | c :: cs =>
    (if pat.isPrefixOf (c :: cs) then [(([] : List Char), (c :: cs).drop pat.length)] else [])
      ++ (occs pat cs).map (fun pr => (c :: pr.1, pr.2))

/-- `/^#{1,6}\s+/` -/
def pHeading (t : List Char) : Bool :=
  let k := (t.takeWhile (fun c => c == '#')).length
  (decide (1 ≤ k) && decide (k ≤ 6)) &&
    (match t.drop k with
     | d :: _ => isJsWs d
     | [] => false)

/-- `/^\*\*.*\*\*/` -/
def pBoldStart (t : List Char) : Bool :=
  match t with
  | a :: b :: r => a == '*' && b == '*' && (occs ['*', '*'] r).any (fun pr => pr.1.all isDotChar)
  | _ => false

/-- `/^\*.*\*/` -/
def pItalicStart (t : List Char) : Bool :=
  match t with
  | a :: r => a == '*' && (occs ['*'] r).any (fun pr => pr.1.all isDotChar)
  | [] => false

/-- `/^>\s+/` -/
def pQuote (t : List Char) : Bool :=
  match t with
  | a :: d :: _ => a == '>' && isJsWs d
  | _ => false

/-- `/^\[.*\]\(.*\)/` -/
def pLinkStart (t : List Char) : Bool :=
  match t with
  | a :: r =>
    a == '[' && (occs [']', '('] r).any
      (fun pr => pr.1.all isDotChar && (occs [')'] pr.2).any (fun qr => qr.1.all isDotChar))
  | [] => false

/-- `/^-{3,}$/` -/
def pHr (t : List Char) : Bool :=
  decide (3 ≤ t.length) && t.all (fun c => c == '-')

/-- `` /^`.*`/ `` -/
def pCodeStart (t : List Char) : Bool :=
  match t with
  | a :: r => a == '`' && (occs ['`'] r).any (fun pr => pr.1.all isDotChar)
  | [] => false

/-- ``/^```/`` -/
def pFence (t : List Char) : Bool := ['`', '`', '`'].isPrefixOf t

/-- `/^[-*+]\s+/` -/
def pListItem (t : List Char) : Bool :=
  match t with
  | a :: d :: _ => (a == '-' || a == '*' || a == '+') && isJsWs d
  | _ => false

/-- `/^\d+\.\s+/` -/
def pOrdered (t : List Char) : Bool :=
  let k := (t.takeWhile jsDigit).length
  decide (1 ≤ k) &&
    (match t.drop k with
     | a :: d :: _ => a == '.' && isJsWs d
     | _ => false)

/-- `/^~~.*~~/` -/
def pStrikeStart (t : List Char) : Bool :=
  match t with
  | a :: b :: r => a == '~' && b == '~' && (occs ['~', '~'] r).any (fun pr => pr.1.all isDotChar)
  | _ => false

/-- `isAlreadyMarkdown` of `script.js`: trim the line and test it against the
fixed battery of canonical-Markdown recognisers. -/
def isAlreadyMarkdown (line : List Char) : Bool :=
  let t := jsTrim line
  pHeading t || pBoldStart t || pItalicStart t || pQuote t || pLinkStart t ||
    pHr t || pCodeStart t || pFence t || pListItem t || pOrdered t || pStrikeStart t

/-- Matcher for the regex suffix `\s*(.+)$`: greedy whitespace, then a
non-empty capture of `.`-characters reaching the end of the string, with the
single-step backtrack into the whitespace run that the JS engine performs
when the remainder after the whitespace is empty. -/
def tailCapture (r : List Char) : Option (List Char) :=
  if (r.dropWhile isJsWs).isEmpty then
    match r.getLast? with
    | some c => if isDotChar c then some [c] else none
    | none => none
  else if (r.dropWhile isJsWs).all isDotChar then some (r.dropWhile isJsWs) else none

/-- `/^heading\s*([1-6]):\s*(.+)$/i` with its rewrite
`'#'.repeat(level) + ' ' + text.trim()`. -/
def headingRule (l : List Char) : Option (List Char) :=
  match stripCI ['h', 'e', 'a', 'd', 'i', 'n', 'g'] l with
  | none => none
  | some r =>
    match r.dropWhile isJsWs with
    | c :: ':' :: r2 =>
      if '1' ≤ c ∧ c ≤ '6' then
        (tailCapture r2).map (fun t => List.replicate (c.toNat - '0'.toNat) '#' ++ ' ' :: jsTrim t)
      else none
    | _ => none

/-- Shared shape of the `<kw1>\s*<kw2>\s*(.+)$`-style line rules
(`bold this:`, `italic this:`, ...): match the two keywords case-insensitively
and build the output from the trimmed capture. -/
def cmdRule (kw1 kw2 : List Char) (mk : List Char → List Char) (l : List Char) :
    Option (List Char) :=
  match stripCI kw1 l with
  | none => none
  | some r =>
    match stripCI kw2 (r.dropWhile isJsWs) with
    | none => none
    | some r2 => (tailCapture r2).map (fun t => mk (jsTrim t))

/-- `/^bold\s*this:\s*(.+)$/i` → `'**' + text.trim() + '**'` -/
def boldRule : List Char → Option (List Char) :=
  cmdRule ['b', 'o', 'l', 'd'] ['t', 'h', 'i', 's', ':'] (fun t => ['*', '*'] ++ t ++ ['*', '*'])

/-- `/^italic\s*this:\s*(.+)$/i` → `'*' + text.trim() + '*'` -/
def italicRule : List Char → Option (List Char) :=
  cmdRule ['i', 't', 'a', 'l', 'i', 'c'] ['t', 'h', 'i', 's', ':'] (fun t => '*' :: t ++ ['*'])

/-- `/^quote\s*this:\s*(.+)$/i` → `'> ' + text.trim()` -/
def quoteRule : List Char → Option (List Char) :=
  cmdRule ['q', 'u', 'o', 't', 'e'] ['t', 'h', 'i', 's', ':'] (fun t => '>' :: ' ' :: t)

/-- The lazy group of `/^link\s*this:\s*(.+?)\s*\|\s*(.+)$/i`: grow the first
capture one `.`-character at a time; after it, greedy whitespace must reach a
literal `|`, and the rest must satisfy `\s*(.+)$`. -/
def linkLazy (b : List Char) : List Char → Option (List Char × List Char)
  | [] => none
  | c :: cs =>
    if isDotChar c then
      match cs.dropWhile isJsWs with
      | '|' :: r4 =>
        (match tailCapture r4 with
         | some e => some (b ++ [c], e)
         | none => linkLazy (b ++ [c]) cs)
      | _ => linkLazy (b ++ [c]) cs
    else none

/-- The part of the link rule after `link\s*this:` — the leading `\s*` is
greedy, backtracking one character at a time into the lazy first capture. -/
def linkBody (r : List Char) : Option (List Char × List Char) :=
  ((List.range ((r.takeWhile isJsWs).length + 1)).reverse).findSome?
    (fun a => linkLazy [] (r.drop a))

/-- `/^link\s*this:\s*(.+?)\s*\|\s*(.+)$/i` →
`'[' + text.trim() + '](' + url.trim() + ')'` -/
def linkRule (l : List Char) : Option (List Char) :=
  match stripCI ['l', 'i', 'n', 'k'] l with
  | none => none
  | some r =>
    match stripCI ['t', 'h', 'i', 's', ':'] (r.dropWhile isJsWs) with
    | none => none
    | some r2 =>
      (linkBody r2).map (fun pr => '[' :: jsTrim pr.1 ++ ']' :: '(' :: jsTrim pr.2 ++ [')'])

/-- The part of the auto-link trigger after `http`: the greedy optional `s`
(tried first), the literal `://`, and `\S+` reaching the end of the line. -/
def schemeOk (b4 : List Char) : Bool :=
  (match stripCI ['s', ':', '/', '/'] b4 with
   | some u => !u.isEmpty && u.all (fun c => !isJsWs c)
   | none => false) ||
  (match stripCI [':', '/', '/'] b4 with
   | some u => !u.isEmpty && u.all (fun c => !isJsWs c)
   | none => false)

/-- `/^link\s*this:\s*(https?:\/\/\S+)$/i` → `'[' + url + '](' + url + ')'` -/
def autoLinkRule (l : List Char) : Option (List Char) :=
  match stripCI ['l', 'i', 'n', 'k'] l with
  | none => none
  | some r =>
    match stripCI ['t', 'h', 'i', 's', ':'] (r.dropWhile isJsWs) with
    | none => none
    | some r2 =>
      match stripCI ['h', 't', 't', 'p'] (r2.dropWhile isJsWs) with
      | none => none
      | some b4 =>
        if schemeOk b4 then
          some ('[' :: r2.dropWhile isJsWs ++ ']' :: '(' :: r2.dropWhile isJsWs ++ [')'])
        else none

/-- One alternative of the horizontal-rule trigger: `<kw1>\s*<kw2>` matching
the whole line. -/
def altEnd (kw1 kw2 : List Char) (l : List Char) : Bool :=
  match stripCI kw1 l with
  | none => false
  | some r =>
    match stripCI kw2 (r.dropWhile isJsWs) with
    | some [] => true
    | _ => false

/-- `/^(break\s*line|new\s*line|horizontal\s*rule|line\s*break)$/i` → `'---'` -/
def breakRule (l : List Char) : Option (List Char) :=
  if altEnd ['b', 'r', 'e', 'a', 'k'] ['l', 'i', 'n', 'e'] l ||
      altEnd ['n', 'e', 'w'] ['l', 'i', 'n', 'e'] l ||
      altEnd ['h', 'o', 'r', 'i', 'z', 'o', 'n', 't', 'a', 'l'] ['r', 'u', 'l', 'e'] l ||
      altEnd ['l', 'i', 'n', 'e'] ['b', 'r', 'e', 'a', 'k'] l then
    some ['-', '-', '-']
  else none

/-- `` /^code\s*this:\s*(.+)$/i `` → `` '`' + text.trim() + '`' `` -/
def codeRule : List Char → Option (List Char) :=
  cmdRule ['c', 'o', 'd', 'e'] ['t', 'h', 'i', 's', ':'] (fun t => '`' :: t ++ ['`'])

/-- `/^list\s*item:\s*(.+)$/i` → `'- ' + text.trim()` -/
def listRule : List Char → Option (List Char) :=
  cmdRule ['l', 'i', 's', 't'] ['i', 't', 'e', 'm', ':'] (fun t => '-' :: ' ' :: t)

/-- `/^number\s*item:\s*(.+)$/i` → `'1. ' + text.trim()` -/
def numberRule : List Char → Option (List Char) :=
  cmdRule ['n', 'u', 'm', 'b', 'e', 'r'] ['i', 't', 'e', 'm', ':'] (fun t => '1' :: '.' :: ' ' :: t)

/-- `/^strike\s*this:\s*(.+)$/i` → `'~~' + text.trim() + '~~'` -/
def strikeRule : List Char → Option (List Char) :=
  cmdRule ['s', 't', 'r', 'i', 'k', 'e'] ['t', 'h', 'i', 's', ':'] (fun t => '~' :: '~' :: t ++ ['~', '~'])

/-- The argument of the inline rules, `\s*([^,\n]+)`: greedy whitespace,
then a non-empty capture up to the next comma or newline.  `pickCap`
performs the regex engine's backtrack into the whitespace run when the
remainder after it starts with a comma/newline or is empty. -/
def pickCap : List Char → List Char → Option (List Char × List Char)
  | [], _ => none
  | c :: wrev, t =>
    if c = ',' ∨ c = '\n' then pickCap wrev (c :: t) else some ([c], t)

/-- See `pickCap`; returns the capture and the remainder of the string after
the whole match. -/
def inlineArg (r2 : List Char) : Option (List Char × List Char) :=
  let w := r2.takeWhile isJsWs
  let t := r2.drop w.length
  let cap := t.takeWhile (fun c => decide (c ≠ ',' ∧ c ≠ '\n'))
  if cap.isEmpty then pickCap w.reverse t else some (cap, t.drop cap.length)

/-- Attempt of `make\s*<kw2>\s*([^,\n]+)` (case-insensitive) at the current
position: returns the capture and the remainder after the match. -/
def makeMatch (kw2 : List Char) (l : List Char) : Option (List Char × List Char) :=
  match stripCI ['m', 'a', 'k', 'e'] l with
  | none => none
  | some r =>
    match stripCI kw2 (r.dropWhile isJsWs) with
    | none => none
    | some r2 => inlineArg r2

theorem stripCI_length {p l r : List Char} (h : stripCI p l = some r) :
    r.length + p.length = l.length := by
  induction p generalizing l with
  | nil =>
    simp only [stripCI, Option.some.injEq] at h
    subst h; simp
  | cons a ps ih =>
    cases l with
    | nil => simp [stripCI] at h
    | cons c cs =>
      simp only [stripCI] at h
      split at h
      · have := ih h
        simp only [List.length_cons]
        omega
      · simp at h

theorem pickCap_rest_length {wrev t cap rest : List Char}
    (h : pickCap wrev t = some (cap, rest)) : rest.length ≤ wrev.length + t.length := by
  induction wrev generalizing t with
  | nil => simp [pickCap] at h
  | cons c wrev ih =>
    simp only [pickCap] at h
    split at h
    · have := ih h
      simp at this ⊢
      omega
    · simp only [Option.some.injEq, Prod.mk.injEq] at h
      obtain ⟨-, rfl⟩ := h
      simp only [List.length_cons]
      omega

theorem inlineArg_rest_length {r2 cap rest : List Char}
    (h : inlineArg r2 = some (cap, rest)) : rest.length ≤ r2.length := by
  simp only [inlineArg] at h
  have hw : (r2.takeWhile isJsWs).length ≤ r2.length :=
    (r2.takeWhile_sublist _).length_le
  split at h
  · have h1 := pickCap_rest_length h
    simp only [List.length_reverse, List.length_drop] at h1
    omega
  · simp only [Option.some.injEq, Prod.mk.injEq] at h
    obtain ⟨-, h2⟩ := h
    subst h2
    simp only [List.length_drop]
    omega

theorem makeMatch_rest_length {kw2 l cap rest : List Char}
    (h : makeMatch kw2 l = some (cap, rest)) : rest.length + 4 ≤ l.length := by
  unfold makeMatch at h
  split at h
  · exact absurd h (by simp)
  · rename_i r hr
    split at h
    · exact absurd h (by simp)
    · rename_i r2 hr2
      have e1 := stripCI_length hr
      have e2 := stripCI_length hr2
      have e3 : (r.dropWhile isJsWs).length ≤ r.length :=
        (r.dropWhile_sublist _).length_le
      have e4 := inlineArg_rest_length h
      simp at e1 e2
      omega

/-- Does `\bmake\s*<kw2>\s*([^,\n]+)` (flags `gi`) match anywhere in the
string?  `prev` is the character before the current position (`none` at the
start of the string); the word boundary holds exactly when it is absent or a
non-word character, since the first matched character `m` is a word
character. -/
def inlineTest (kw2 : List Char) : Option Char → List Char → Bool
  | _, [] => false
  | prev, c :: cs =>
    ((match prev with
      | none => true
      | some p => !isWordChar p) && (makeMatch kw2 (c :: cs)).isSome) ||
      inlineTest kw2 (some c) cs

/-- Global replacement of `\bmake\s*<kw2>\s*([^,\n]+)` by
`pre ++ capture.trim() ++ post`: scan left to right, replace every match,
and resume immediately after each match (the character preceding the resume
position is the last character of the capture). -/
def inlineAll (kw2 pre post : List Char) : Option Char → List Char → List Char
  | _, [] => []
  | prev, c :: cs =>
    if (match prev with
        | none => true
        | some p => !isWordChar p) then
      match h : makeMatch kw2 (c :: cs) with
      | some (cap, rest) =>
        pre ++ jsTrim cap ++ post ++ inlineAll kw2 pre post cap.getLast? rest
      | none => c :: inlineAll kw2 pre post (some c) cs
    else c :: inlineAll kw2 pre post (some c) cs
  termination_by _ l => l.length
  decreasing_by
    · have := makeMatch_rest_length h
      simp only [List.length_cons] at this ⊢
      omega
    · simp
    · simp

/-- One inline rule of the table: `pattern.test(line)` followed, on success,
by the global `line.replace(pattern, ...)`. -/
def inlineRuleApply (kw2 pre post : List Char) (l : List Char) : Option (List Char) :=
  if inlineTest kw2 none l then some (inlineAll kw2 pre post none l) else none

/-- `/\bmake\s*bold:\s*([^,\n]+)/gi` → `'**' + text.trim() + '**'` -/
def inlineBoldRule (l : List Char) : Option (List Char) :=
  inlineRuleApply ['b', 'o', 'l', 'd', ':'] ['*', '*'] ['*', '*'] l

/-- `/\bmake\s*italic:\s*([^,\n]+)/gi` → `'*' + text.trim() + '*'` -/
def inlineItalicRule (l : List Char) : Option (List Char) :=
  inlineRuleApply ['i', 't', 'a', 'l', 'i', 'c', ':'] ['*'] ['*'] l

/-- One entry of the `transformations` table: trigger-plus-rewrite (as a
partial function on the line) and the audit-log description. -/
structure EasyRule where
  apply : List Char → Option (List Char)
  desc : String

/-- The `transformations` array of `script.js`, in source order. -/
def transformations : List EasyRule :=
  [⟨headingRule, "Heading conversion"⟩,
   ⟨boldRule, "Bold text conversion"⟩,
   ⟨italicRule, "Italic text conversion"⟩,
   ⟨quoteRule, "Blockquote conversion"⟩,
   ⟨linkRule, "Link with URL conversion"⟩,
   ⟨autoLinkRule, "Auto-link conversion"⟩,
   ⟨breakRule, "Horizontal rule conversion"⟩,
   ⟨codeRule, "Inline code conversion"⟩,
   ⟨listRule, "List item conversion"⟩,
   ⟨numberRule, "Numbered list conversion"⟩,
   ⟨strikeRule, "Strikethrough conversion"⟩,
   ⟨inlineBoldRule, "Inline bold conversion"⟩,
   ⟨inlineItalicRule, "Inline italic conversion"⟩]

/-- The dispatch loop over the rule table: apply the first rule whose
trigger matches and stop (`break` in the source). -/
def firstApply : List EasyRule → List Char → Option (List Char × String)
  | [], _ => none
  | r :: rs, l =>
    match r.apply l with
    | some out => some (out, r.desc)
    | none => firstApply rs l

/-- The rule at index `i` of a table, applied to a line. -/
def applyAt (rs : List EasyRule) (i : Nat) (l : List Char) : Option (List Char) :=
  match rs.get? i with
  | some r => r.apply l
  | none => none

/-- The description of the rule at index `i`. -/
def descAt (rs : List EasyRule) (i : Nat) : String :=
  match rs.get? i with
  | some r => r.desc
  | none => ""

/-- One line of the `forEach` body: skip blank and already-canonical lines,
otherwise run the dispatch loop; the second component is the description of
the rule that fired, if any (the line was transformed and logged). -/
def processLine (line : List Char) : List Char × Option String :=
  if jsTrim line = [] ∨ isAlreadyMarkdown line = true then (line, none)
  else
    match firstApply transformations line with
    | some (out, d) => (out, some d)
    | none => (line, none)

/-- An entry of `this.conversionLog`. -/
structure LogEntry where
  lineNumber : Nat
  original : List Char
  transformed : List Char
  description : String
  deriving DecidableEq

/-- The `lines.forEach` loop: transform every line in order, collecting the
log entries (1-based line numbers, starting at `n + 1`). -/
def processLines : Nat → List (List Char) → List (List Char) × List LogEntry
  | _, [] => ([], [])
  | n, l :: ls =>
    let p := processLine l
    let rest := processLines (n + 1) ls
    (p.1 :: rest.1,
      (match p.2 with
       | some d => [⟨n + 1, l, p.1, d⟩]
       | none => []) ++ rest.2)

/-- `inputText.split('\n')`. -/
def splitNl : List Char → List (List Char)
  | [] => [[]]
  | c :: cs =>
    if c = '\n' then [] :: splitNl cs
    else
      match splitNl cs with
      | [] => [[c]]
      | h :: t => (c :: h) :: t

/-- `transformedLines.join('\n')`. -/
def joinNl : List (List Char) → List Char
  | [] => []
  | [l] => l
  | l :: ls => l ++ '\n' :: joinNl ls

/-- `transformEasySyntaxToMarkdown` of `script.js`.  The second argument and
second component are the value of the instance field `this.conversionLog`
before and after the call: the early return for empty or whitespace-only
input happens before the `this.conversionLog = []` reset, so on that path
the stored log is left untouched. -/
def transformEasySyntaxToMarkdown (inputText : List Char) (conversionLog : List LogEntry) :
    List Char × List LogEntry :=
  if jsTrim inputText = [] then (inputText, conversionLog)
  else
    let r := processLines 0 (splitNl inputText)
    (joinNl r.1, r.2)

/-! ### Infrastructure lemmas -/

theorem splitNl_ne_nil (l : List Char) : splitNl l ≠ [] := by
  cases l with
  | nil => simp [splitNl]
  | cons c cs =>
    simp only [splitNl]
    split
    · simp
    · split <;> simp

theorem mem_splitNl_no_nl {l piece : List Char} (h : piece ∈ splitNl l) : '\n' ∉ piece := by
  induction l generalizing piece with
  | nil => simp [splitNl] at h; simp [h]
  | cons c cs ih =>
    simp only [splitNl] at h
    split at h
    · rcases List.mem_cons.1 h with rfl | h'
      · simp
      · exact ih h'
    · rename_i hc
      rcases hs : splitNl cs with - | ⟨h0, t0⟩
      · exact absurd hs (splitNl_ne_nil cs)
      · rw [hs] at h
        rcases List.mem_cons.1 h with rfl | h'
        · intro hmem
          rcases List.mem_cons.1 hmem with rfl | hmem'
          · exact hc rfl
          · exact ih (hs ▸ List.mem_cons_self h0 t0) hmem'
        · exact ih (hs ▸ List.mem_cons_of_mem h0 h')

theorem splitNl_of_no_nl {l : List Char} (h : '\n' ∉ l) : splitNl l = [l] := by
  induction l with
  | nil => simp [splitNl]
  | cons c cs ih =>
    simp only [splitNl]
    rw [if_neg (by intro hc; exact h (hc ▸ List.mem_cons_self c cs)),
      ih (fun hm => h (List.mem_cons_of_mem c hm))]

theorem splitNl_cons (c : Char) (l : List Char) :
    splitNl (c :: l) =
      if c = '\n' then [] :: splitNl l
      else
        match splitNl l with
        | [] => [[c]]
        | h :: t => (c :: h) :: t := rfl

theorem splitNl_append_nl {p r : List Char} (h : '\n' ∉ p) :
    splitNl (p ++ '\n' :: r) = p :: splitNl r := by
  induction p with
  | nil => simp [splitNl]
  | cons c cs ih =>
    rw [List.cons_append, splitNl_cons,
      if_neg (by intro hc; exact h (hc ▸ List.mem_cons_self c cs)),
      ih (fun hm => h (List.mem_cons_of_mem c hm))]

theorem splitNl_joinNl {ps : List (List Char)} (hne : ps ≠ [])
    (h : ∀ p ∈ ps, '\n' ∉ p) : splitNl (joinNl ps) = ps := by
  induction ps with
  | nil => exact absurd rfl hne
  | cons p ps ih =>
    cases ps with
    | nil => exact splitNl_of_no_nl (h p (List.mem_cons_self p []))
    | cons q qs =>
      show splitNl (p ++ '\n' :: joinNl (q :: qs)) = _
      rw [splitNl_append_nl (h p (List.mem_cons_self p _)),
        ih (by simp) (fun x hx => h x (List.mem_cons_of_mem p hx))]

theorem dropWhile_eq_cons_head_false {p : Char → Bool} {l : List Char} {c : Char}
    {xs : List Char} (h : l.dropWhile p = c :: xs) : p c = false := by
  have := List.head_dropWhile_not p l (by simp [h])
  simpa [h] using this

theorem jsTrimEnd_all {p : Char → Bool} {l : List Char} (h : l.all p = true) :
    (jsTrimEnd l).all p = true := by
  unfold jsTrimEnd
  rw [List.all_reverse]
  exact List.all_eq_true.2 fun c hc =>
    List.all_eq_true.1 h c (List.mem_reverse.1 ((l.reverse.dropWhile_sublist _).mem hc))

theorem jsTrim_all {p : Char → Bool} {l : List Char} (h : l.all p = true) :
    (jsTrim l).all p = true := by
  unfold jsTrim
  exact jsTrimEnd_all (List.all_eq_true.2 fun c hc =>
    List.all_eq_true.1 h c ((l.dropWhile_sublist _).mem hc))

theorem mem_of_mem_jsTrim {l : List Char} {c : Char} (h : c ∈ jsTrim l) : c ∈ l := by
  unfold jsTrim jsTrimEnd at h
  rw [List.mem_reverse] at h
  have h1 := ((l.dropWhile isJsWs).reverse.dropWhile_sublist isJsWs).mem h
  rw [List.mem_reverse] at h1
  exact (l.dropWhile_sublist isJsWs).mem h1

theorem jsTrimEnd_append_last {x : List Char} {b : Char} (hb : isJsWs b = false) :
    jsTrimEnd (x ++ [b]) = x ++ [b] := by
  unfold jsTrimEnd
  rw [List.reverse_append, List.reverse_singleton, List.singleton_append,
    List.dropWhile_cons, hb]
  simp

theorem jsTrim_cons_of_not_ws {c : Char} {cs : List Char} (hc : isJsWs c = false) :
    jsTrim (c :: cs) = jsTrimEnd (c :: cs) := by
  unfold jsTrim
  rw [List.dropWhile_cons, hc]
  simp

theorem jsTrimEnd_cons {c : Char} {cs : List Char} (hc : isJsWs c = false) :
    jsTrimEnd (c :: cs) = c :: jsTrimEnd cs := by
  unfold jsTrimEnd
  rw [List.reverse_cons, List.dropWhile_append]
  split
  · rename_i hcase
    rw [List.isEmpty_iff] at hcase
    rw [hcase]
    simp [List.dropWhile_cons, hc]
  · simp

theorem jsTrim_wrap {a b : Char} {x : List Char} (ha : isJsWs a = false)
    (hb : isJsWs b = false) : jsTrim (a :: (x ++ [b])) = a :: (x ++ [b]) := by
  rw [jsTrim_cons_of_not_ws ha, jsTrimEnd_cons ha, jsTrimEnd_append_last hb]

theorem jsTrim_reverse (t : List Char) :
    (jsTrim t).reverse = (t.dropWhile isJsWs).reverse.dropWhile isJsWs := by
  unfold jsTrim jsTrimEnd
  rw [List.reverse_reverse]

theorem jsTrim_last_not_ws {t : List Char} (h : jsTrim t ≠ []) :
    ∃ y b, jsTrim t = y ++ [b] ∧ isJsWs b = false := by
  rcases hd : (jsTrim t).reverse with - | ⟨b, ys⟩
  · exact absurd (by simpa using congrArg List.reverse hd) h
  · refine ⟨ys.reverse, b, by simpa using congrArg List.reverse hd, ?_⟩
    have hrev : (t.dropWhile isJsWs).reverse.dropWhile isJsWs = b :: ys := by
      rw [← jsTrim_reverse]; exact hd
    exact dropWhile_eq_cons_head_false hrev

theorem jsTrimEnd_isPre (x : List Char) : jsTrimEnd x <+: x := by
  unfold jsTrimEnd
  have h : x.reverse.dropWhile isJsWs <:+ x.reverse := List.dropWhile_suffix _
  have h2 : (x.reverse.dropWhile isJsWs).reverse <+: x.reverse.reverse :=
    List.reverse_prefix.2 h
  simpa using h2

theorem occs_mem {pat u v : List Char} : (u, v) ∈ occs pat (u ++ pat ++ v) := by
  induction u with
  | nil =>
    cases hl : pat ++ v with
    | nil =>
      rcases List.append_eq_nil.1 hl with ⟨h1, h2⟩
      subst h1; subst h2
      simp [occs]
    | cons c cs =>
      simp only [List.nil_append, hl, occs]
      rw [← hl]
      rw [if_pos (by rw [ List.isPrefixOf_iff_prefix]; exact List.prefix_append pat v)]
      simp [List.drop_left]
  | cons a u ih =>
    simp only [List.cons_append, occs]
    refine List.mem_append_right _ ?_
    exact List.mem_map.2 ⟨(u, v), ih, rfl⟩

theorem stripCI_some_head {p : Char} {ps l r : List Char} (h : stripCI (p :: ps) l = some r) :
    ∃ c cs, l = c :: cs ∧ (c = p ∨ c = upcase p) := by
  cases l with
  | nil => simp [stripCI] at h
  | cons c cs =>
    refine ⟨c, cs, rfl, ?_⟩
    simp only [stripCI] at h
    split at h
    · rename_i hci
      simpa [ciMatch] using hci
    · simp at h

theorem tailCapture_some {r t : List Char} (h : tailCapture r = some t) :
    t ≠ [] ∧ t.all isDotChar = true := by
  unfold tailCapture at h
  split at h
  · split at h
    · split at h
      · rename_i hdot
        simp only [Option.some.injEq] at h
        subst h
        simp [hdot]
      · simp at h
    · simp at h
  · rename_i hne
    split at h
    · rename_i hall
      simp only [Option.some.injEq] at h
      subst h
      exact ⟨by simpa [List.isEmpty_iff] using hne, hall⟩
    · simp at h

/-! ### Heads of command lines and the canonical-syntax detector -/

/-- First characters (either case) of the triggers of the eleven LINE-scope
rules. -/
def isCmdLetter (c : Char) : Bool :=
  decide (c = 'h' ∨ c = 'H' ∨ c = 'b' ∨ c = 'B' ∨ c = 'i' ∨ c = 'I' ∨ c = 'q' ∨ c = 'Q' ∨
    c = 'l' ∨ c = 'L' ∨ c = 'c' ∨ c = 'C' ∨ c = 'n' ∨ c = 'N' ∨ c = 's' ∨ c = 'S')

theorem cmdLetter_facts {c : Char} (h : isCmdLetter c = true) :
    isJsWs c = false ∧ c ≠ '#' ∧ c ≠ '*' ∧ c ≠ '>' ∧ c ≠ '[' ∧ c ≠ '-' ∧ c ≠ '`' ∧
      c ≠ '+' ∧ c ≠ '~' ∧ jsDigit c = false := by
  simp only [isCmdLetter, decide_eq_true_eq] at h
  rcases h with rfl | rfl | rfl | rfl | rfl | rfl | rfl | rfl | rfl | rfl | rfl | rfl | rfl |
    rfl | rfl | rfl <;> exact ⟨by decide, by decide, by decide, by decide, by decide,
      by decide, by decide, by decide, by decide, by decide⟩

theorem not_md_head {c : Char} {cs : List Char}
    (hws : isJsWs c = false) (h1 : c ≠ '#') (h2 : c ≠ '*') (h3 : c ≠ '>') (h4 : c ≠ '[')
    (h5 : c ≠ '-') (h6 : c ≠ '`') (h7 : c ≠ '+') (h8 : c ≠ '~') (h9 : jsDigit c = false) :
    isAlreadyMarkdown (c :: cs) = false := by
  unfold isAlreadyMarkdown
  rw [jsTrim_cons_of_not_ws hws, jsTrimEnd_cons hws]
  cases jsTrimEnd cs with
  | nil =>
    simp [pHeading, pBoldStart, pItalicStart, pQuote, pLinkStart, pHr, pCodeStart, pFence,
      pListItem, pOrdered, pStrikeStart, List.takeWhile_cons, List.isPrefixOf,
      h1, h2, h3, h4, h5, h6, h7, h8, h9, Ne.symm h6]
  | cons d rest =>
    simp [pHeading, pBoldStart, pItalicStart, pQuote, pLinkStart, pHr, pCodeStart, pFence,
      pListItem, pOrdered, pStrikeStart, List.takeWhile_cons, List.isPrefixOf,
      h1, h2, h3, h4, h5, h6, h7, h8, h9, Ne.symm h6]

theorem not_skip_of_cmdLetter {c : Char} {cs : List Char} (h : isCmdLetter c = true) :
    jsTrim (c :: cs) ≠ [] ∧ isAlreadyMarkdown (c :: cs) = false := by
  obtain ⟨f0, f1, f2, f3, f4, f5, f6, f7, f8, f9⟩ := cmdLetter_facts h
  refine ⟨?_, not_md_head f0 f1 f2 f3 f4 f5 f6 f7 f8 f9⟩
  rw [jsTrim_cons_of_not_ws f0, jsTrimEnd_cons f0]
  simp

theorem headingRule_head {l out : List Char} (h : headingRule l = some out) :
    ∃ c cs, l = c :: cs ∧ (c = 'h' ∨ c = upcase 'h') := by
  unfold headingRule at h
  split at h
  · simp at h
  · rename_i r hr
    exact stripCI_some_head hr

theorem cmdRule_head {p : Char} {ps kw2 l out : List Char} {mk : List Char → List Char}
    (h : cmdRule (p :: ps) kw2 mk l = some out) :
    ∃ c cs, l = c :: cs ∧ (c = p ∨ c = upcase p) := by
  unfold cmdRule at h
  split at h
  · simp at h
  · rename_i r hr
    exact stripCI_some_head hr

theorem linkRule_head {l out : List Char} (h : linkRule l = some out) :
    ∃ c cs, l = c :: cs ∧ (c = 'l' ∨ c = upcase 'l') := by
  unfold linkRule at h
  split at h
  · simp at h
  · rename_i r hr
    exact stripCI_some_head hr

theorem autoLinkRule_head {l out : List Char} (h : autoLinkRule l = some out) :
    ∃ c cs, l = c :: cs ∧ (c = 'l' ∨ c = upcase 'l') := by
  unfold autoLinkRule at h
  split at h
  · simp at h
  · rename_i r hr
    exact stripCI_some_head hr

theorem altEnd_head {p : Char} {ps kw2 l : List Char} (h : altEnd (p :: ps) kw2 l = true) :
    ∃ c cs, l = c :: cs ∧ (c = p ∨ c = upcase p) := by
  unfold altEnd at h
  split at h
  · simp at h
  · rename_i r hr
    exact stripCI_some_head hr

theorem breakRule_head {l out : List Char} (h : breakRule l = some out) :
    ∃ c cs, l = c :: cs ∧ isCmdLetter c = true := by
  have conv : ∀ (p : Char), isCmdLetter p = true → isCmdLetter (upcase p) = true →
      (∃ c cs, l = c :: cs ∧ (c = p ∨ c = upcase p)) →
      ∃ c cs, l = c :: cs ∧ isCmdLetter c = true := by
    rintro p hp hup ⟨c, cs, rfl, hc | hc⟩
    · exact ⟨c, cs, rfl, by rw [hc]; exact hp⟩
    · exact ⟨c, cs, rfl, by rw [hc]; exact hup⟩
  unfold breakRule at h
  split at h
  · rename_i hcond
    simp only [Bool.or_eq_true] at hcond
    rcases hcond with ((hb | hn) | hh) | hl
    · exact conv 'b' (by decide) (by decide) (altEnd_head hb)
    · exact conv 'n' (by decide) (by decide) (altEnd_head hn)
    · exact conv 'h' (by decide) (by decide) (altEnd_head hh)
    · exact conv 'l' (by decide) (by decide) (altEnd_head hl)
  · simp at h

theorem lineRule_head {i : Nat} {l out : List Char} (hi : i ≤ 10)
    (h : applyAt transformations i l = some out) :
    ∃ c cs, l = c :: cs ∧ isCmdLetter c = true := by
  have conv : ∀ (p : Char), isCmdLetter p = true → isCmdLetter (upcase p) = true →
      (∃ c cs, l = c :: cs ∧ (c = p ∨ c = upcase p)) →
      ∃ c cs, l = c :: cs ∧ isCmdLetter c = true := by
    rintro p hp hup ⟨c, cs, rfl, hc | hc⟩
    · exact ⟨c, cs, rfl, by rw [hc]; exact hp⟩
    · exact ⟨c, cs, rfl, by rw [hc]; exact hup⟩
  interval_cases i
  · exact conv 'h' (by decide) (by decide)
      (headingRule_head (show headingRule l = some out from h))
  · exact conv 'b' (by decide) (by decide)
      (@cmdRule_head 'b' ['o', 'l', 'd'] ['t', 'h', 'i', 's', ':'] l out
        (fun t => ['*', '*'] ++ t ++ ['*', '*']) h)
  · exact conv 'i' (by decide) (by decide)
      (@cmdRule_head 'i' ['t', 'a', 'l', 'i', 'c'] ['t', 'h', 'i', 's', ':'] l out
        (fun t => '*' :: t ++ ['*']) h)
  · exact conv 'q' (by decide) (by decide)
      (@cmdRule_head 'q' ['u', 'o', 't', 'e'] ['t', 'h', 'i', 's', ':'] l out
        (fun t => '>' :: ' ' :: t) h)
  · exact conv 'l' (by decide) (by decide)
      (linkRule_head (show linkRule l = some out from h))
  · exact conv 'l' (by decide) (by decide)
      (autoLinkRule_head (show autoLinkRule l = some out from h))
  · exact breakRule_head (show breakRule l = some out from h)
  · exact conv 'c' (by decide) (by decide)
      (@cmdRule_head 'c' ['o', 'd', 'e'] ['t', 'h', 'i', 's', ':'] l out
        (fun t => '`' :: t ++ ['`']) h)
  · exact conv 'l' (by decide) (by decide)
      (@cmdRule_head 'l' ['i', 's', 't'] ['i', 't', 'e', 'm', ':'] l out
        (fun t => '-' :: ' ' :: t) h)
  · exact conv 'n' (by decide) (by decide)
      (@cmdRule_head 'n' ['u', 'm', 'b', 'e', 'r'] ['i', 't', 'e', 'm', ':'] l out
        (fun t => '1' :: '.' :: ' ' :: t) h)
  · exact conv 's' (by decide) (by decide)
      (@cmdRule_head 's' ['t', 'r', 'i', 'k', 'e'] ['t', 'h', 'i', 's', ':'] l out
        (fun t => '~' :: '~' :: t ++ ['~', '~']) h)

theorem lineRule_not_skip {i : Nat} {l out : List Char} (hi : i ≤ 10)
    (h : applyAt transformations i l = some out) :
    jsTrim l ≠ [] ∧ isAlreadyMarkdown l = false := by
  obtain ⟨c, cs, rfl, hc⟩ := lineRule_head hi h
  exact not_skip_of_cmdLetter hc

/-! ### Dispatch-loop lemmas -/

theorem firstApply_eq_of_min {rs : List EasyRule} {i : Nat} {l out : List Char}
    (h1 : applyAt rs i l = some out) (h2 : ∀ m, m < i → applyAt rs m l = none) :
    firstApply rs l = some (out, descAt rs i) := by
  induction rs generalizing i with
  | nil => simp [applyAt] at h1
  | cons r rs ih =>
    cases i with
    | zero =>
      have h1' : r.apply l = some out := by simpa [applyAt] using h1
      simp [firstApply, h1', descAt]
    | succ n =>
      have h0 : r.apply l = none := by
        have := h2 0 (Nat.succ_pos n)
        simpa [applyAt] using this
      have hd : descAt (r :: rs) (n + 1) = descAt rs n := by
        simp [descAt, List.get?_cons_succ]
      simp only [firstApply, h0, hd]
      exact ih (by simpa [applyAt, List.get?_cons_succ] using h1)
        (fun m hm => by
          have := h2 (m + 1) (Nat.succ_lt_succ hm)
          simpa [applyAt, List.get?_cons_succ] using this)

theorem firstApply_mem {rs : List EasyRule} {l out : List Char} {d : String}
    (h : firstApply rs l = some (out, d)) :
    ∃ r ∈ rs, r.apply l = some out ∧ r.desc = d := by
  induction rs with
  | nil => simp [firstApply] at h
  | cons r rs ih =>
    simp only [firstApply] at h
    split at h
    · rename_i o ho
      simp only [Option.some.injEq, Prod.mk.injEq] at h
      exact ⟨r, List.mem_cons_self r rs, by rw [ho, h.1], h.2⟩
    · rcases ih h with ⟨r', hr', hap, hde⟩
      exact ⟨r', List.mem_cons_of_mem r hr', hap, hde⟩

theorem processLine_eq_rule {i : Nat} {l out : List Char}
    (hns : jsTrim l ≠ []) (hnm : isAlreadyMarkdown l = false)
    (h1 : applyAt transformations i l = some out)
    (h2 : ∀ m, m < i → applyAt transformations m l = none) :
    processLine l = (out, some (descAt transformations i)) := by
  unfold processLine
  rw [if_neg (by rintro (hc | hc); exacts [hns hc, by rw [hnm] at hc; cases hc]),
    firstApply_eq_of_min h1 h2]

theorem processLine_skip {l : List Char} (h : jsTrim l = [] ∨ isAlreadyMarkdown l = true) :
    processLine l = (l, none) := by
  unfold processLine
  rw [if_pos h]

theorem processLine_no_rule {l : List Char} (h : firstApply transformations l = none) :
    processLine l = (l, none) := by
  unfold processLine
  split
  · rfl
  · rw [h]

/-! ### Inversion lemmas for the rule matchers -/

theorem cmdRule_inv {kw1 kw2 l out : List Char} {mk : List Char → List Char}
    (h : cmdRule kw1 kw2 mk l = some out) :
    ∃ t, out = mk (jsTrim t) ∧ t ≠ [] ∧ t.all isDotChar = true := by
  unfold cmdRule at h
  split at h
  · simp at h
  · split at h
    · simp at h
    · rename_i r2 hr2
      obtain ⟨t, ht, hmk⟩ := Option.map_eq_some'.mp h
      obtain ⟨hne, hdot⟩ := tailCapture_some ht
      exact ⟨t, hmk.symm, hne, hdot⟩

theorem headingRule_inv {l out : List Char} (h : headingRule l = some out) :
    ∃ n t, 1 ≤ n ∧ n ≤ 6 ∧ out = List.replicate n '#' ++ ' ' :: jsTrim t ∧
      t ≠ [] ∧ t.all isDotChar = true := by
  unfold headingRule at h
  split at h
  · simp at h
  · split at h
    · rename_i c r2 hdrop
      split at h
      · rename_i hc
        obtain ⟨t, ht, hmk⟩ := Option.map_eq_some'.mp h
        obtain ⟨hne, hdot⟩ := tailCapture_some ht
        refine ⟨c.toNat - '0'.toNat, t, ?_, ?_, hmk.symm, hne, hdot⟩
        · have h1 : ('1' : Char).toNat ≤ c.toNat := hc.1
          have h0v : ('0' : Char).toNat = 48 := by decide
          have h1v : ('1' : Char).toNat = 49 := by decide
          omega
        · have h6 : c.toNat ≤ ('6' : Char).toNat := hc.2
          have h0v : ('0' : Char).toNat = 48 := by decide
          have h6v : ('6' : Char).toNat = 54 := by decide
          omega
      · simp at h
    · simp at h

theorem linkLazy_dot {rest b b' e : List Char} (hb : b.all isDotChar = true)
    (h : linkLazy b rest = some (b', e)) :
    b'.all isDotChar = true ∧ e.all isDotChar = true := by
  induction rest generalizing b with
  | nil => simp [linkLazy] at h
  | cons c cs ih =>
    simp only [linkLazy] at h
    split at h
    · rename_i hdot
      have hbc : (b ++ [c]).all isDotChar = true := by simp [hb, hdot]
      split at h
      · rename_i r4 hr4
        split at h
        · rename_i e' he
          simp only [Option.some.injEq, Prod.mk.injEq] at h
          obtain ⟨h1, h2⟩ := h
          subst h1; subst h2
          exact ⟨hbc, (tailCapture_some he).2⟩
        · exact ih hbc h
      · exact ih hbc h
    · simp at h

theorem linkRule_inv {l out : List Char} (h : linkRule l = some out) :
    ∃ b e, out = '[' :: jsTrim b ++ ']' :: '(' :: jsTrim e ++ [')'] ∧
      b.all isDotChar = true ∧ e.all isDotChar = true := by
  unfold linkRule at h
  split at h
  · simp at h
  · split at h
    · simp at h
    · rename_i r2 hr2
      obtain ⟨⟨b, e⟩, hb, hmk⟩ := Option.map_eq_some'.mp h
      unfold linkBody at hb
      obtain ⟨a, _, hlz⟩ := List.exists_of_findSome?_eq_some hb
      obtain ⟨hbdot, hedot⟩ := linkLazy_dot (by simp) hlz
      exact ⟨b, e, hmk.symm, hbdot, hedot⟩

theorem ciMatch_not_ws {p c : Char} (hp : isJsWs p = false ∧ isJsWs (upcase p) = false)
    (h : ciMatch p c = true) : isJsWs c = false := by
  simp only [ciMatch, Bool.or_eq_true, decide_eq_true_eq] at h
  rcases h with rfl | rfl
  · exact hp.1
  · exact hp.2

theorem stripCI_all_not_ws {p l r : List Char}
    (hp : ∀ pc ∈ p, isJsWs pc = false ∧ isJsWs (upcase pc) = false)
    (h : stripCI p l = some r) (hr : r.all (fun c => !isJsWs c) = true) :
    l.all (fun c => !isJsWs c) = true := by
  induction p generalizing l with
  | nil =>
    simp only [stripCI, Option.some.injEq] at h
    subst h; exact hr
  | cons a ps ih =>
    cases l with
    | nil => simp [stripCI] at h
    | cons c cs =>
      simp only [stripCI] at h
      split at h
      · rename_i hci
        have hc : isJsWs c = false := ciMatch_not_ws (hp a (List.mem_cons_self a ps)) hci
        have := ih (fun pc hpc => hp pc (List.mem_cons_of_mem a hpc)) h
        simp [hc, this]
      · simp at h

theorem schemeOk_all {b4 : List Char} (h : schemeOk b4 = true) :
    b4.all (fun c => !isJsWs c) = true := by
  unfold schemeOk at h
  rw [Bool.or_eq_true] at h
  rcases h with h | h
  · split at h
    · rename_i u hu
      rw [Bool.and_eq_true] at h
      exact stripCI_all_not_ws (by decide) hu h.2
    · simp at h
  · split at h
    · rename_i u hu
      rw [Bool.and_eq_true] at h
      exact stripCI_all_not_ws (by decide) hu h.2
    · simp at h

theorem autoLinkRule_inv {l out : List Char} (h : autoLinkRule l = some out) :
    ∃ body, out = '[' :: body ++ ']' :: '(' :: body ++ [')'] ∧
      body.all (fun c => !isJsWs c) = true := by
  unfold autoLinkRule at h
  split at h
  · simp at h
  · split at h
    · simp at h
    · rename_i r2 hr2
      split at h
      · simp at h
      · rename_i b4 hb4
        split at h
        · rename_i hscheme
          simp only [Option.some.injEq] at h
          refine ⟨r2.dropWhile isJsWs, h.symm, ?_⟩
          exact stripCI_all_not_ws (by decide) hb4 (schemeOk_all hscheme)
        · simp at h

theorem breakRule_inv {l out : List Char} (h : breakRule l = some out) :
    out = ['-', '-', '-'] := by
  unfold breakRule at h
  split at h
  · simpa using h.symm
  · simp at h

/-! ### Canonical-shape lemmas: every LINE-rule output is inert on re-run -/

theorem md_of_pattern {line : List Char} (ht : jsTrim line = line)
    (h : pHeading line = true ∨ pBoldStart line = true ∨ pItalicStart line = true ∨
      pQuote line = true ∨ pLinkStart line = true ∨ pHr line = true ∨
      pCodeStart line = true ∨ pFence line = true ∨ pListItem line = true ∨
      pOrdered line = true ∨ pStrikeStart line = true) :
    isAlreadyMarkdown line = true := by
  unfold isAlreadyMarkdown
  rw [ht]
  rcases h with h | h | h | h | h | h | h | h | h | h | h <;> simp [h]

theorem dot_of_not_ws {c : Char} (h : isJsWs c = false) : isDotChar c = true := by
  simp only [isJsWs, decide_eq_false_iff_not, not_or] at h
  simp only [isDotChar, decide_eq_true_eq]
  tauto

theorem all_dot_of_all_not_ws {l : List Char} (h : l.all (fun c => !isJsWs c) = true) :
    l.all isDotChar = true := by
  rw [List.all_eq_true] at h ⊢
  intro c hc
  exact dot_of_not_ws (by simpa using h c hc)

theorem any_occs_of_dot {pat u v : List Char} (hu : u.all isDotChar = true) :
    ((occs pat (u ++ pat ++ v)).any fun pr => pr.1.all isDotChar) = true :=
  List.any_eq_true.2 ⟨(u, v), occs_mem, hu⟩

theorem md_bold {t' : List Char} (hdot : t'.all isDotChar = true) :
    isAlreadyMarkdown ('*' :: '*' :: (t' ++ ['*', '*'])) = true := by
  apply md_of_pattern
  · have hform : '*' :: '*' :: (t' ++ ['*', '*']) = '*' :: (('*' :: t' ++ ['*']) ++ ['*']) := by
      simp
    rw [hform]
    exact jsTrim_wrap (by decide) (by decide)
  · refine Or.inr (Or.inl ?_)
    show (('*' == '*') && ('*' == '*') &&
      (occs ['*', '*'] (t' ++ ['*', '*'])).any fun pr => pr.1.all isDotChar) = true
    have : t' ++ ['*', '*'] = t' ++ ['*', '*'] ++ [] := by simp
    rw [this, any_occs_of_dot hdot]
    decide

theorem md_italic {t' : List Char} (hdot : t'.all isDotChar = true) :
    isAlreadyMarkdown ('*' :: (t' ++ ['*'])) = true := by
  apply md_of_pattern
  · exact jsTrim_wrap (by decide) (by decide)
  · refine Or.inr (Or.inr (Or.inl ?_))
    show (('*' == '*') && (occs ['*'] (t' ++ ['*'])).any fun pr => pr.1.all isDotChar) = true
    have : t' ++ ['*'] = t' ++ ['*'] ++ [] := by simp
    rw [this, any_occs_of_dot hdot]
    decide

theorem md_quote {y : List Char} {b : Char} (hb : isJsWs b = false) :
    isAlreadyMarkdown ('>' :: ' ' :: (y ++ [b])) = true := by
  apply md_of_pattern
  · have hform : '>' :: ' ' :: (y ++ [b]) = '>' :: ((' ' :: y) ++ [b]) := by simp
    rw [hform]
    exact jsTrim_wrap (by decide) hb
  · refine Or.inr (Or.inr (Or.inr (Or.inl ?_)))
    show (('>' == '>') && isJsWs ' ') = true
    decide

theorem md_link {u v : List Char} (hu : u.all isDotChar = true)
    (hv : v.all isDotChar = true) :
    isAlreadyMarkdown ('[' :: u ++ ']' :: '(' :: v ++ [')']) = true := by
  apply md_of_pattern
  · have hform : '[' :: u ++ ']' :: '(' :: v ++ [')'] =
        '[' :: ((u ++ ']' :: '(' :: v) ++ [')']) := by simp
    rw [hform]
    exact jsTrim_wrap (by decide) (by decide)
  · refine Or.inr (Or.inr (Or.inr (Or.inr (Or.inl ?_))))
    show (('[' == '[') && (occs [']', '('] (u ++ ']' :: '(' :: v ++ [')'])).any fun pr =>
      pr.1.all isDotChar && (occs [')'] pr.2).any fun qr => qr.1.all isDotChar) = true
    have hform2 : u ++ ']' :: '(' :: v ++ [')'] = u ++ [']', '('] ++ (v ++ [')']) := by simp
    rw [hform2, Bool.and_eq_true]
    have hmem : ((u, v ++ [')']) : List Char × List Char) ∈
        occs [']', '('] (u ++ [']', '('] ++ (v ++ [')'])) := occs_mem
    have hinner : ((occs [')'] (v ++ [')'])).any fun qr => qr.1.all isDotChar) = true := by
      have : v ++ [')'] = v ++ [')'] ++ [] := by simp
      rw [this]
      exact any_occs_of_dot hv
    refine ⟨by decide, ?_⟩
    rw [List.any_eq_true]
    exact ⟨(u, v ++ [')']), hmem, by simp [hu, hinner]⟩

theorem md_code {t' : List Char} (hdot : t'.all isDotChar = true) :
    isAlreadyMarkdown ('`' :: (t' ++ ['`'])) = true := by
  apply md_of_pattern
  · exact jsTrim_wrap (by decide) (by decide)
  · refine Or.inr (Or.inr (Or.inr (Or.inr (Or.inr (Or.inr (Or.inl ?_))))))
    show (('`' == '`') && (occs ['`'] (t' ++ ['`'])).any fun pr => pr.1.all isDotChar) = true
    have : t' ++ ['`'] = t' ++ ['`'] ++ [] := by simp
    rw [this, any_occs_of_dot hdot]
    decide

theorem md_list {y : List Char} {b : Char} (hb : isJsWs b = false) :
    isAlreadyMarkdown ('-' :: ' ' :: (y ++ [b])) = true := by
  apply md_of_pattern
  · have hform : '-' :: ' ' :: (y ++ [b]) = '-' :: ((' ' :: y) ++ [b]) := by simp
    rw [hform]
    exact jsTrim_wrap (by decide) hb
  · refine Or.inr (Or.inr (Or.inr (Or.inr (Or.inr (Or.inr (Or.inr (Or.inr (Or.inl ?_))))))))
    show ((('-' == '-') || ('-' == '*') || ('-' == '+')) && isJsWs ' ') = true
    decide

theorem md_number {y : List Char} {b : Char} (hb : isJsWs b = false) :
    isAlreadyMarkdown ('1' :: '.' :: ' ' :: (y ++ [b])) = true := by
  apply md_of_pattern
  · have hform : '1' :: '.' :: ' ' :: (y ++ [b]) = '1' :: (('.' :: ' ' :: y) ++ [b]) := by simp
    rw [hform]
    exact jsTrim_wrap (by decide) hb
  · refine Or.inr (Or.inr (Or.inr (Or.inr (Or.inr (Or.inr (Or.inr (Or.inr (Or.inr
      (Or.inl ?_)))))))))
    unfold pOrdered
    have htw : ('1' :: '.' :: ' ' :: (y ++ [b])).takeWhile jsDigit = ['1'] := by
      rw [List.takeWhile_cons]
      simp [List.takeWhile_cons, jsDigit]
    rw [htw]
    have hsp : isJsWs ' ' = true := by decide
    simp [hsp]

theorem md_strike {t' : List Char} (hdot : t'.all isDotChar = true) :
    isAlreadyMarkdown ('~' :: '~' :: (t' ++ ['~', '~'])) = true := by
  apply md_of_pattern
  · have hform : '~' :: '~' :: (t' ++ ['~', '~']) = '~' :: (('~' :: t' ++ ['~']) ++ ['~']) := by
      simp
    rw [hform]
    exact jsTrim_wrap (by decide) (by decide)
  · refine Or.inr (Or.inr (Or.inr (Or.inr (Or.inr (Or.inr (Or.inr (Or.inr (Or.inr
      (Or.inr ?_)))))))))
    show (('~' == '~') && ('~' == '~') &&
      (occs ['~', '~'] (t' ++ ['~', '~'])).any fun pr => pr.1.all isDotChar) = true
    have : t' ++ ['~', '~'] = t' ++ ['~', '~'] ++ [] := by simp
    rw [this, any_occs_of_dot hdot]
    decide

theorem md_heading {m : Nat} {y : List Char} {b : Char} (hm : m + 1 ≤ 6)
    (hb : isJsWs b = false) :
    isAlreadyMarkdown (List.replicate (m + 1) '#' ++ ' ' :: (y ++ [b])) = true := by
  have htw : ∀ (k : Nat) (rest : List Char),
      ((List.replicate k '#' ++ ' ' :: rest).takeWhile fun c => c == '#') =
        List.replicate k '#' := by
    intro k
    induction k with
    | zero => intro rest; simp [List.takeWhile_cons]
    | succ n ih =>
      intro rest
      simp only [List.replicate_succ, List.cons_append, List.takeWhile_cons]
      rw [ih rest]
      simp
  apply md_of_pattern
  · have hform : List.replicate (m + 1) '#' ++ ' ' :: (y ++ [b]) =
        '#' :: ((List.replicate m '#' ++ ' ' :: y) ++ [b]) := by
      rw [List.replicate_succ]
      simp
    rw [hform]
    exact jsTrim_wrap (by decide) hb
  · refine Or.inl ?_
    unfold pHeading
    rw [htw, List.length_replicate]
    have hdrop : (List.replicate (m + 1) '#' ++ ' ' :: (y ++ [b])).drop (m + 1) =
        ' ' :: (y ++ [b]) := List.drop_left' (List.length_replicate _ _)
    have h1 : decide (1 ≤ m + 1) = true := by simp
    have h2 : decide (m + 1 ≤ 6) = true := by simpa using hm
    have hsp : isJsWs ' ' = true := by decide
    simp [hdrop, h1, h2, hsp]
    omega

theorem jsTrim_cons_ne_nil {c : Char} {cs : List Char} (hc : isJsWs c = false) :
    jsTrim (c :: cs) ≠ [] := by
  rw [jsTrim_cons_of_not_ws hc, jsTrimEnd_cons hc]
  simp

theorem lineRuleOut_fixed {i : Nat} {l out : List Char} (hi : i ≤ 10)
    (h : applyAt transformations i l = some out) :
    processLine out = (out, none) ∧ jsTrim out ≠ [] := by
  interval_cases i
  · obtain ⟨n, t, h1, h6, rfl, hne, hdot⟩ :=
      headingRule_inv (show headingRule l = some out from h)
    obtain ⟨m, rfl⟩ : ∃ m, n = m + 1 := ⟨n - 1, by omega⟩
    by_cases hjt : jsTrim t = []
    · rw [hjt]
      have hm5 : m ≤ 5 := by omega
      interval_cases m <;> exact ⟨by decide, by decide⟩
    · obtain ⟨y, b, hyb, hb⟩ := jsTrim_last_not_ws hjt
      rw [hyb]
      exact ⟨processLine_skip (Or.inr (md_heading h6 hb)), jsTrim_cons_ne_nil (by decide)⟩
  · obtain ⟨t, rfl, hne, hdot⟩ := cmdRule_inv (show cmdRule ['b', 'o', 'l', 'd']
      ['t', 'h', 'i', 's', ':'] (fun t => ['*', '*'] ++ t ++ ['*', '*']) l = some out from h)
    exact ⟨processLine_skip (Or.inr (md_bold (jsTrim_all hdot))),
      jsTrim_cons_ne_nil (by decide)⟩
  · obtain ⟨t, rfl, hne, hdot⟩ := cmdRule_inv (show cmdRule ['i', 't', 'a', 'l', 'i', 'c']
      ['t', 'h', 'i', 's', ':'] (fun t => '*' :: t ++ ['*']) l = some out from h)
    exact ⟨processLine_skip (Or.inr (md_italic (jsTrim_all hdot))),
      jsTrim_cons_ne_nil (by decide)⟩
  · obtain ⟨t, rfl, hne, hdot⟩ := cmdRule_inv (show cmdRule ['q', 'u', 'o', 't', 'e']
      ['t', 'h', 'i', 's', ':'] (fun t => '>' :: ' ' :: t) l = some out from h)
    by_cases hjt : jsTrim t = []
    · rw [hjt]
      exact ⟨by decide, by decide⟩
    · obtain ⟨y, b, hyb, hb⟩ := jsTrim_last_not_ws hjt
      rw [hyb]
      exact ⟨processLine_skip (Or.inr (md_quote hb)), jsTrim_cons_ne_nil (by decide)⟩
  · obtain ⟨b, e, rfl, hbd, hed⟩ := linkRule_inv (show linkRule l = some out from h)
    exact ⟨processLine_skip (Or.inr (md_link (jsTrim_all hbd) (jsTrim_all hed))),
      jsTrim_cons_ne_nil (by decide)⟩
  · obtain ⟨body, rfl, hall⟩ := autoLinkRule_inv (show autoLinkRule l = some out from h)
    exact ⟨processLine_skip (Or.inr
        (md_link (all_dot_of_all_not_ws hall) (all_dot_of_all_not_ws hall))),
      jsTrim_cons_ne_nil (by decide)⟩
  · rw [breakRule_inv (show breakRule l = some out from h)]
    exact ⟨by decide, by decide⟩
  · obtain ⟨t, rfl, hne, hdot⟩ := cmdRule_inv (show cmdRule ['c', 'o', 'd', 'e']
      ['t', 'h', 'i', 's', ':'] (fun t => '`' :: t ++ ['`']) l = some out from h)
    exact ⟨processLine_skip (Or.inr (md_code (jsTrim_all hdot))),
      jsTrim_cons_ne_nil (by decide)⟩
  · obtain ⟨t, rfl, hne, hdot⟩ := cmdRule_inv (show cmdRule ['l', 'i', 's', 't']
      ['i', 't', 'e', 'm', ':'] (fun t => '-' :: ' ' :: t) l = some out from h)
    by_cases hjt : jsTrim t = []
    · rw [hjt]
      exact ⟨by decide, by decide⟩
    · obtain ⟨y, b, hyb, hb⟩ := jsTrim_last_not_ws hjt
      rw [hyb]
      exact ⟨processLine_skip (Or.inr (md_list hb)), jsTrim_cons_ne_nil (by decide)⟩
  · obtain ⟨t, rfl, hne, hdot⟩ := cmdRule_inv (show cmdRule ['n', 'u', 'm', 'b', 'e', 'r']
      ['i', 't', 'e', 'm', ':'] (fun t => '1' :: '.' :: ' ' :: t) l = some out from h)
    by_cases hjt : jsTrim t = []
    · rw [hjt]
      exact ⟨by decide, by decide⟩
    · obtain ⟨y, b, hyb, hb⟩ := jsTrim_last_not_ws hjt
      rw [hyb]
      exact ⟨processLine_skip (Or.inr (md_number hb)), jsTrim_cons_ne_nil (by decide)⟩
  · obtain ⟨t, rfl, hne, hdot⟩ := cmdRule_inv (show cmdRule ['s', 't', 'r', 'i', 'k', 'e']
      ['t', 'h', 'i', 's', ':'] (fun t => '~' :: '~' :: t ++ ['~', '~']) l = some out from h)
    exact ⟨processLine_skip (Or.inr (md_strike (jsTrim_all hdot))),
      jsTrim_cons_ne_nil (by decide)⟩

/-! ### No line feed is ever introduced into a transformed line -/

theorem not_nl_of_all_dot {l : List Char} (h : l.all isDotChar = true) : '\n' ∉ l := by
  intro hmem
  have := List.all_eq_true.1 h _ hmem
  simp [isDotChar] at this

theorem stripCI_mem {p l r : List Char} (h : stripCI p l = some r) : ∀ x ∈ r, x ∈ l := by
  induction p generalizing l with
  | nil =>
    simp only [stripCI, Option.some.injEq] at h
    subst h
    exact fun x hx => hx
  | cons a ps ih =>
    cases l with
    | nil => simp [stripCI] at h
    | cons c cs =>
      simp only [stripCI] at h
      split at h
      · exact fun x hx => List.mem_cons_of_mem c (ih h x hx)
      · simp at h

theorem pickCap_inv {wrev t cap rest : List Char} (h : pickCap wrev t = some (cap, rest)) :
    cap ≠ [] ∧ '\n' ∉ cap ∧ (∀ x ∈ cap, x ∈ wrev) ∧ (∀ x ∈ rest, x ∈ wrev ∨ x ∈ t) := by
  induction wrev generalizing t with
  | nil => simp [pickCap] at h
  | cons c wrev ih =>
    simp only [pickCap] at h
    split at h
    · obtain ⟨h0, h1, h2, h3⟩ := ih h
      refine ⟨h0, h1, fun x hx => List.mem_cons_of_mem c (h2 x hx), fun x hx => ?_⟩
      rcases h3 x hx with hw | hct
      · exact Or.inl (List.mem_cons_of_mem c hw)
      · rcases List.mem_cons.1 hct with rfl | ht
        · exact Or.inl (List.mem_cons_self x wrev)
        · exact Or.inr ht
    · rename_i hc
      simp only [Option.some.injEq, Prod.mk.injEq] at h
      obtain ⟨hcap, hrest⟩ := h
      subst hcap
      subst hrest
      refine ⟨by simp, ?_, ?_, fun x hx => Or.inr hx⟩
      · intro hm
        rcases List.mem_singleton.1 hm with rfl
        exact hc (Or.inr rfl)
      · intro x hx
        rcases List.mem_singleton.1 hx with rfl
        exact List.mem_cons_self x wrev

theorem inlineArg_inv {r2 cap rest : List Char} (h : inlineArg r2 = some (cap, rest)) :
    cap ≠ [] ∧ '\n' ∉ cap ∧ (∀ x ∈ cap, x ∈ r2) ∧ (∀ x ∈ rest, x ∈ r2) := by
  have hwsub : ∀ x ∈ r2.takeWhile isJsWs, x ∈ r2 := fun x hx =>
    (r2.takeWhile_sublist isJsWs).mem hx
  have htsub : ∀ x ∈ r2.drop (r2.takeWhile isJsWs).length, x ∈ r2 := fun x hx =>
    (r2.drop_sublist _).mem hx
  simp only [inlineArg] at h
  split at h
  · obtain ⟨h0, h1, h2, h3⟩ := pickCap_inv h
    refine ⟨h0, h1, fun x hx => hwsub x (List.mem_reverse.1 (h2 x hx)), fun x hx => ?_⟩
    rcases h3 x hx with hw | ht
    · exact hwsub x (List.mem_reverse.1 hw)
    · exact htsub x ht
  · rename_i hne
    simp only [Option.some.injEq, Prod.mk.injEq] at h
    obtain ⟨hcap, hrest⟩ := h
    subst hcap
    subst hrest
    refine ⟨by simpa [List.isEmpty_iff] using hne, ?_, ?_, ?_⟩
    · intro hmem
      have := List.mem_takeWhile_imp hmem
      simp at this
    · exact fun x hx => htsub x ((List.takeWhile_sublist _).mem hx)
    · exact fun x hx => htsub x ((List.drop_sublist _ _).mem hx)

theorem makeMatch_inv {kw2 l cap rest : List Char} (h : makeMatch kw2 l = some (cap, rest)) :
    cap ≠ [] ∧ '\n' ∉ cap ∧ (∀ x ∈ cap, x ∈ l) ∧ (∀ x ∈ rest, x ∈ l) := by
  unfold makeMatch at h
  split at h
  · simp at h
  · rename_i r hr
    split at h
    · simp at h
    · rename_i r2 hr2
      obtain ⟨h0, h1, h2, h3⟩ := inlineArg_inv h
      have hsub : ∀ x ∈ r2, x ∈ l := fun x hx =>
        stripCI_mem hr x ((r.dropWhile_sublist isJsWs).mem (stripCI_mem hr2 x hx))
      exact ⟨h0, h1, fun x hx => hsub x (h2 x hx), fun x hx => hsub x (h3 x hx)⟩

theorem inlineAll_cons_match {kw2 pre post : List Char} {prev : Option Char} {c : Char}
    {cs cap rest : List Char}
    (hb : (match prev with | none => true | some p => !isWordChar p) = true)
    (hm : makeMatch kw2 (c :: cs) = some (cap, rest)) :
    inlineAll kw2 pre post prev (c :: cs) =
      pre ++ jsTrim cap ++ post ++ inlineAll kw2 pre post cap.getLast? rest := by
  rw [inlineAll.eq_def]
  simp only [hb, if_true]
  split
  · rename_i cap2 rest2 hm2
    rw [hm2] at hm
    simp only [Option.some.injEq, Prod.mk.injEq] at hm
    rw [hm.1, hm.2]
  · rename_i hm2
    rw [hm2] at hm
    cases hm

theorem inlineAll_cons_none {kw2 pre post : List Char} {prev : Option Char} {c : Char}
    {cs : List Char}
    (hb : (match prev with | none => true | some p => !isWordChar p) = true)
    (hm : makeMatch kw2 (c :: cs) = none) :
    inlineAll kw2 pre post prev (c :: cs) = c :: inlineAll kw2 pre post (some c) cs := by
  rw [inlineAll.eq_def]
  simp only [hb, if_true]
  split
  · rename_i cap2 rest2 hm2
    rw [hm2] at hm
    cases hm
  · rfl

theorem inlineAll_cons_skip {kw2 pre post : List Char} {prev : Option Char} {c : Char}
    {cs : List Char}
    (hb : (match prev with | none => true | some p => !isWordChar p) = false) :
    inlineAll kw2 pre post prev (c :: cs) = c :: inlineAll kw2 pre post (some c) cs := by
  rw [inlineAll.eq_def]
  simp only [hb, if_false, Bool.false_eq_true]

theorem inlineAll_nil (kw2 pre post : List Char) (prev : Option Char) :
    inlineAll kw2 pre post prev [] = [] := by
  rw [inlineAll.eq_def]

theorem inlineAll_cons (kw2 pre post : List Char) (prev : Option Char) (c : Char)
    (cs : List Char) :
    inlineAll kw2 pre post prev (c :: cs) =
      if (match prev with | none => true | some p => !isWordChar p) then
        match makeMatch kw2 (c :: cs) with
        | some (cap, rest) =>
          pre ++ jsTrim cap ++ post ++ inlineAll kw2 pre post cap.getLast? rest
        | none => c :: inlineAll kw2 pre post (some c) cs
      else c :: inlineAll kw2 pre post (some c) cs := by
  by_cases hb : (match prev with | none => true | some p => !isWordChar p) = true
  · rw [if_pos hb]
    rcases hm : makeMatch kw2 (c :: cs) with - | ⟨cap, rest⟩
    · rw [inlineAll_cons_none hb hm]
    · rw [inlineAll_cons_match hb hm]
  · rw [if_neg hb, inlineAll_cons_skip (by simpa using hb)]

theorem inlineAll_mem {kw2 pre post : List Char} :
    ∀ (prev : Option Char) (l : List Char), ∀ x ∈ inlineAll kw2 pre post prev l,
      x ∈ pre ∨ x ∈ post ∨ x ∈ l := by
  intro prev l
  induction prev, l using inlineAll.induct kw2 pre post with
  | case1 prev => simp [inlineAll]
  | case2 prev c cs hb cap rest hmm ih =>
    intro x hx
    rw [inlineAll_cons_match hb hmm] at hx
    obtain ⟨-, -, hcap, hrest⟩ := makeMatch_inv hmm
    rcases List.mem_append.1 hx with hx1 | hx4
    · rcases List.mem_append.1 hx1 with hx2 | h3
      · rcases List.mem_append.1 hx2 with h1 | h2
        · exact Or.inl h1
        · exact Or.inr (Or.inr (hcap x (mem_of_mem_jsTrim h2)))
      · exact Or.inr (Or.inl h3)
    · rcases ih x hx4 with h4 | h4 | h4
      · exact Or.inl h4
      · exact Or.inr (Or.inl h4)
      · exact Or.inr (Or.inr (hrest x h4))
  | case3 prev c cs hb hmm ih =>
    intro x hx
    rw [inlineAll_cons_none hb hmm] at hx
    rcases List.mem_cons.1 hx with rfl | hx2
    · exact Or.inr (Or.inr (List.mem_cons_self x cs))
    rcases ih x hx2 with h4 | h4 | h4
    · exact Or.inl h4
    · exact Or.inr (Or.inl h4)
    · exact Or.inr (Or.inr (List.mem_cons_of_mem c h4))
  | case4 prev c cs hb ih =>
    intro x hx
    rw [inlineAll_cons_skip (by simpa using hb)] at hx
    rcases List.mem_cons.1 hx with rfl | hx2
    · exact Or.inr (Or.inr (List.mem_cons_self x cs))
    rcases ih x hx2 with h4 | h4 | h4
    · exact Or.inl h4
    · exact Or.inr (Or.inl h4)
    · exact Or.inr (Or.inr (List.mem_cons_of_mem c h4))

theorem inlineRuleApply_mem {kw2 pre post l out : List Char}
    (h : inlineRuleApply kw2 pre post l = some out) :
    ∀ x ∈ out, x ∈ pre ∨ x ∈ post ∨ x ∈ l := by
  unfold inlineRuleApply at h
  split at h
  · simp only [Option.some.injEq] at h
    subst h
    exact inlineAll_mem none l
  · simp at h

theorem applyRule_no_nl {l out : List Char} {r : EasyRule} (hr : r ∈ transformations)
    (h : r.apply l = some out) (hl : '\n' ∉ l) : '\n' ∉ out := by
  have hnl_trim : ∀ {t : List Char}, t.all isDotChar = true → '\n' ∉ jsTrim t := by
    intro t ht hmem
    exact not_nl_of_all_dot (jsTrim_all ht) hmem
  simp only [transformations, List.mem_cons, List.not_mem_nil, or_false] at hr
  rcases hr with rfl | rfl | rfl | rfl | rfl | rfl | rfl | rfl | rfl | rfl | rfl | rfl | rfl
  · obtain ⟨n, t, -, -, rfl, -, hdot⟩ :=
      headingRule_inv (show headingRule l = some out from h)
    intro hmem
    rcases List.mem_append.1 hmem with h1 | h2
    · exact absurd (List.eq_of_mem_replicate h1) (by decide)
    · rcases List.mem_cons.1 h2 with hsp | h3
      · exact absurd hsp (by decide)
      · exact hnl_trim hdot h3
  · obtain ⟨t, rfl, -, hdot⟩ := cmdRule_inv (show cmdRule ['b', 'o', 'l', 'd']
      ['t', 'h', 'i', 's', ':'] (fun t => ['*', '*'] ++ t ++ ['*', '*']) l = some out from h)
    intro hmem
    rcases List.mem_append.1 hmem with h1 | h2
    · rcases List.mem_append.1 h1 with h1a | h1b
      · exact absurd h1a (by decide)
      · exact hnl_trim hdot h1b
    · exact absurd h2 (by decide)
  · obtain ⟨t, rfl, -, hdot⟩ := cmdRule_inv (show cmdRule ['i', 't', 'a', 'l', 'i', 'c']
      ['t', 'h', 'i', 's', ':'] (fun t => '*' :: t ++ ['*']) l = some out from h)
    intro hmem
    rcases List.mem_cons.1 hmem with h0 | h1
    · exact absurd h0 (by decide)
    rcases List.mem_append.1 h1 with h2 | h3
    · exact hnl_trim hdot h2
    · exact absurd h3 (by decide)
  · obtain ⟨t, rfl, -, hdot⟩ := cmdRule_inv (show cmdRule ['q', 'u', 'o', 't', 'e']
      ['t', 'h', 'i', 's', ':'] (fun t => '>' :: ' ' :: t) l = some out from h)
    intro hmem
    rcases List.mem_cons.1 hmem with h0 | h1
    · exact absurd h0 (by decide)
    rcases List.mem_cons.1 h1 with h2 | h3
    · exact absurd h2 (by decide)
    · exact hnl_trim hdot h3
  · obtain ⟨b, e, rfl, hbd, hed⟩ := linkRule_inv (show linkRule l = some out from h)
    intro hmem
    rcases List.mem_cons.1 hmem with h0 | h1
    · exact absurd h0 (by decide)
    rcases List.mem_append.1 h1 with h2 | h3
    · rcases List.mem_append.1 h2 with h2a | h2b
      · exact hnl_trim hbd h2a
      · rcases List.mem_cons.1 h2b with h4 | h5
        · exact absurd h4 (by decide)
        rcases List.mem_cons.1 h5 with h6 | h7
        · exact absurd h6 (by decide)
        · exact hnl_trim hed h7
    · exact absurd h3 (by decide)
  · obtain ⟨body, rfl, hall⟩ := autoLinkRule_inv (show autoLinkRule l = some out from h)
    have hbody : '\n' ∉ body := by
      intro hmem
      have := List.all_eq_true.1 hall _ hmem
      simp [isJsWs] at this
    intro hmem
    rcases List.mem_cons.1 hmem with h0 | h1
    · exact absurd h0 (by decide)
    rcases List.mem_append.1 h1 with h2 | h3
    · rcases List.mem_append.1 h2 with h2a | h2b
      · exact hbody h2a
      · rcases List.mem_cons.1 h2b with h4 | h5
        · exact absurd h4 (by decide)
        rcases List.mem_cons.1 h5 with h6 | h7
        · exact absurd h6 (by decide)
        · exact hbody h7
    · exact absurd h3 (by decide)
  · rw [breakRule_inv (show breakRule l = some out from h)]
    decide
  · obtain ⟨t, rfl, -, hdot⟩ := cmdRule_inv (show cmdRule ['c', 'o', 'd', 'e']
      ['t', 'h', 'i', 's', ':'] (fun t => '`' :: t ++ ['`']) l = some out from h)
    intro hmem
    rcases List.mem_cons.1 hmem with h0 | h1
    · exact absurd h0 (by decide)
    rcases List.mem_append.1 h1 with h2 | h3
    · exact hnl_trim hdot h2
    · exact absurd h3 (by decide)
  · obtain ⟨t, rfl, -, hdot⟩ := cmdRule_inv (show cmdRule ['l', 'i', 's', 't']
      ['i', 't', 'e', 'm', ':'] (fun t => '-' :: ' ' :: t) l = some out from h)
    intro hmem
    rcases List.mem_cons.1 hmem with h0 | h1
    · exact absurd h0 (by decide)
    rcases List.mem_cons.1 h1 with h2 | h3
    · exact absurd h2 (by decide)
    · exact hnl_trim hdot h3
  · obtain ⟨t, rfl, -, hdot⟩ := cmdRule_inv (show cmdRule ['n', 'u', 'm', 'b', 'e', 'r']
      ['i', 't', 'e', 'm', ':'] (fun t => '1' :: '.' :: ' ' :: t) l = some out from h)
    intro hmem
    rcases List.mem_cons.1 hmem with h0 | h1
    · exact absurd h0 (by decide)
    rcases List.mem_cons.1 h1 with h2 | h3
    · exact absurd h2 (by decide)
    rcases List.mem_cons.1 h3 with h4 | h5
    · exact absurd h4 (by decide)
    · exact hnl_trim hdot h5
  · obtain ⟨t, rfl, -, hdot⟩ := cmdRule_inv (show cmdRule ['s', 't', 'r', 'i', 'k', 'e']
      ['t', 'h', 'i', 's', ':'] (fun t => '~' :: '~' :: t ++ ['~', '~']) l = some out from h)
    intro hmem
    rcases List.mem_cons.1 hmem with h0 | h1
    · exact absurd h0 (by decide)
    rcases List.mem_cons.1 h1 with h2 | h3
    · exact absurd h2 (by decide)
    rcases List.mem_append.1 h3 with h4 | h5
    · exact hnl_trim hdot h4
    · exact absurd h5 (by decide)
  · intro hmem
    rcases inlineRuleApply_mem (show inlineRuleApply ['b', 'o', 'l', 'd', ':'] ['*', '*']
        ['*', '*'] l = some out from h) _ hmem with h1 | h1 | h1
    · exact absurd h1 (by decide)
    · exact absurd h1 (by decide)
    · exact hl h1
  · intro hmem
    rcases inlineRuleApply_mem (show inlineRuleApply ['i', 't', 'a', 'l', 'i', 'c', ':'] ['*']
        ['*'] l = some out from h) _ hmem with h1 | h1 | h1
    · exact absurd h1 (by decide)
    · exact absurd h1 (by decide)
    · exact hl h1

theorem processLine_no_nl {l : List Char} (hl : '\n' ∉ l) : '\n' ∉ (processLine l).1 := by
  unfold processLine
  split
  · exact hl
  · rcases hfa : firstApply transformations l with - | ⟨out, d⟩
    · simpa using hl
    · obtain ⟨r, hr, happ, -⟩ := firstApply_mem hfa
      simpa using applyRule_no_nl hr happ hl

/-! ### The line loop and the whole-buffer transform -/

theorem processLines_fst (n : Nat) (ls : List (List Char)) :
    (processLines n ls).1 = ls.map (fun l => (processLine l).1) := by
  induction ls generalizing n with
  | nil => simp [processLines]
  | cons l ls ih => simp [processLines, ih]

theorem processLines_log_mem {n : Nat} {ls : List (List Char)} {e : LogEntry}
    (h : e ∈ (processLines n ls).2) :
    ∃ k l, ls.get? k = some l ∧ e.lineNumber = n + k + 1 ∧
      (processLine l).2 ≠ none ∧ e.original = l ∧ e.transformed = (processLine l).1 := by
  induction ls generalizing n with
  | nil => simp [processLines] at h
  | cons l ls ih =>
    simp only [processLines] at h
    rcases List.mem_append.1 h with h1 | h2
    · rcases hd : (processLine l).2 with - | d
      · rw [hd] at h1
        simp at h1
      · rw [hd] at h1
        simp only [List.mem_singleton] at h1
        subst h1
        exact ⟨0, l, by simp, by simp, by simp [hd], rfl, rfl⟩
    · obtain ⟨k, l', hget, hnum, hsome, horig, htrans⟩ := ih h2
      refine ⟨k + 1, l', by simpa using hget, by omega, hsome, horig, htrans⟩

theorem processLines_log_length (n : Nat) (ls : List (List Char)) :
    (processLines n ls).2.length =
      (ls.filter (fun l => ((processLine l).2).isSome)).length := by
  induction ls generalizing n with
  | nil => simp [processLines]
  | cons l ls ih =>
    simp only [processLines, List.filter_cons]
    rcases hd : (processLine l).2 with - | d
    · simp [hd, ih (n + 1)]
    · simp [hd, ih (n + 1)]

theorem transform_out_lines {input : List Char} {p : List LogEntry}
    (h : jsTrim input ≠ []) :
    splitNl (transformEasySyntaxToMarkdown input p).1 =
      (splitNl input).map (fun l => (processLine l).1) := by
  unfold transformEasySyntaxToMarkdown
  rw [if_neg h]
  simp only
  rw [processLines_fst]
  apply splitNl_joinNl
  · intro hmap
    rw [List.map_eq_nil_iff] at hmap
    exact splitNl_ne_nil input hmap
  · intro piece hp
    obtain ⟨l0, hl0, rfl⟩ := List.mem_map.1 hp
    exact processLine_no_nl (mem_splitNl_no_nl hl0)

theorem transform_log {input : List Char} {p : List LogEntry} (h : jsTrim input ≠ []) :
    (transformEasySyntaxToMarkdown input p).2 = (processLines 0 (splitNl input)).2 := by
  unfold transformEasySyntaxToMarkdown
  rw [if_neg h]

theorem transform_single {l : List Char} {p : List LogEntry} (hnl : '\n' ∉ l)
    (h : jsTrim l ≠ []) :
    transformEasySyntaxToMarkdown l p =
      ((processLine l).1,
        match (processLine l).2 with
        | some d => [⟨1, l, (processLine l).1, d⟩]
        | none => []) := by
  unfold transformEasySyntaxToMarkdown
  rw [if_neg h, splitNl_of_no_nl hnl]
  simp only [processLines, joinNl]
  rcases hd : (processLine l).2 with - | d <;> simp [hd, joinNl]

theorem transform_log_length {input : List Char} {p : List LogEntry}
    (h : jsTrim input ≠ []) :
    (transformEasySyntaxToMarkdown input p).2.length =
      ((splitNl input).filter (fun l => ((processLine l).2).isSome)).length := by
  rw [transform_log h, processLines_log_length]

theorem applyAt_mem {rs : List EasyRule} {i : Nat} {l out : List Char}
    (h : applyAt rs i l = some out) : ∃ r ∈ rs, r.apply l = some out := by
  unfold applyAt at h
  split at h
  · rename_i r hr
    exact ⟨r, List.get?_mem hr, h⟩
  · simp at h

theorem firstApply_eq_none {rs : List EasyRule} {l : List Char}
    (h : ∀ r ∈ rs, r.apply l = none) : firstApply rs l = none := by
  induction rs with
  | nil => simp [firstApply]
  | cons r rs ih =>
    simp only [firstApply, h r (List.mem_cons_self r rs)]
    exact ih fun r' hr' => h r' (List.mem_cons_of_mem r hr')

/-! ### The claims -/

/-- C1, counterexample.  The claim says that on a non-blank, non-canonical
line containing `make bold: urgent, make italic: note` both inline commands
are rewritten and no audit-log entry is produced.  In the code both inline
rules are ordinary members of the first-match rule table: the `make bold`
rule fires, logs an entry, and `break` stops the scan, so `make italic:
note` survives untouched and the log is non-empty. -/
theorem claim1_counterexample :
    transformEasySyntaxToMarkdown ( "say make bold: urgent, make italic: note").toList [] =
      (( "say **urgent**, make italic: note").toList,
       [⟨1, ( "say make bold: urgent, make italic: note").toList,
         ( "say **urgent**, make italic: note").toList, "Inline bold conversion"⟩]) ∧
    (transformEasySyntaxToMarkdown
      ( "say make bold: urgent, make italic: note").toList []).2 ≠ [] := by
  have happ : applyAt transformations 11
      ( "say make bold: urgent, make italic: note").toList =
      some ( "say **urgent**, make italic: note").toList := by
    show inlineRuleApply ['b', 'o', 'l', 'd', ':'] ['*', '*'] ['*', '*']
      ( "say make bold: urgent, make italic: note").toList =
      some ( "say **urgent**, make italic: note").toList
    unfold inlineRuleApply
    rw [if_pos (by decide)]
    simp +decide [inlineAll_cons, inlineAll_nil, makeMatch, stripCI, inlineArg, pickCap,
      ciMatch, upcase, isWordChar, jsTrim, jsTrimEnd, isJsWs, isDotChar, List.dropWhile,
      List.takeWhile, List.getLast?]
  have hpl := processLine_eq_rule (by decide) (by decide) happ (by decide)
  constructor
  · rw [transform_single (by decide) (by decide), hpl]
    rfl
  · rw [transform_single (by decide) (by decide), hpl]
    simp

/-- C1, amended: inline rules take part in the same first-match scan as the
LINE rules.  On a non-blank, non-canonical line on which no rule of index
below 11 matches and the inline-bold rule matches, the transform rewrites
every `make bold:` occurrence of the line, produces exactly one audit-log
entry (description `Inline bold conversion`), and stops — in particular any
`make italic:` occurrence on the same line is left untouched. -/
theorem claim1_inline_first_match {l out : List Char} (p : List LogEntry)
    (hnl : '\n' ∉ l) (hns : jsTrim l ≠ []) (hnm : isAlreadyMarkdown l = false)
    (hnone : ∀ m, m < 11 → applyAt transformations m l = none)
    (hbold : applyAt transformations 11 l = some out) :
    transformEasySyntaxToMarkdown l p = (out, [⟨1, l, out, "Inline bold conversion"⟩]) := by
  have hpl := processLine_eq_rule hns hnm hbold hnone
  have hdesc : descAt transformations 11 = "Inline bold conversion" := rfl
  rw [hdesc] at hpl
  rw [transform_single hnl hns, hpl]

/-- Witness for C1's amended theorem at a concrete line: only the bold
inline command is rewritten and one log entry appears. -/
theorem claim1_inline_first_match_witness :
    transformEasySyntaxToMarkdown ( "a make bold: x, make italic: y").toList [] =
      (( "a **x**, make italic: y").toList,
       [⟨1, ( "a make bold: x, make italic: y").toList,
         ( "a **x**, make italic: y").toList, "Inline bold conversion"⟩]) :=
  claim1_inline_first_match [] (by decide) (by decide) (by decide) (by decide)
    (by
      show inlineRuleApply ['b', 'o', 'l', 'd', ':'] ['*', '*'] ['*', '*']
        ( "a make bold: x, make italic: y").toList =
        some ( "a **x**, make italic: y").toList
      unfold inlineRuleApply
      rw [if_pos (by decide)]
      simp +decide [inlineAll_cons, inlineAll_nil, makeMatch, stripCI, inlineArg, pickCap,
        ciMatch, upcase, isWordChar, jsTrim, jsTrimEnd, isJsWs, isDotChar, List.dropWhile,
        List.takeWhile, List.getLast?])

/-- C2: at most one rule is applied per line, and when two LINE-scope rules
both match, the rule applied is the first matching rule of the table, whose
rewrite fully replaces the line (together with its log description). -/
theorem claim2_first_rule_wins {l : List Char} {i j : Nat} (hj : j ≤ 10) (hij : i < j)
    (hi : applyAt transformations i l ≠ none) (hjm : applyAt transformations j l ≠ none) :
    ∃ k out, k ≤ i ∧ applyAt transformations k l = some out ∧
      (∀ m, m < k → applyAt transformations m l = none) ∧
      processLine l = (out, some (descAt transformations k)) := by
  have hex : ∃ n, (applyAt transformations n l).isSome = true := by
    refine ⟨i, ?_⟩
    rcases ho : applyAt transformations i l with - | o
    · exact absurd ho hi
    · simp
  have hk : (applyAt transformations (Nat.find hex) l).isSome = true := Nat.find_spec hex
  have hki : Nat.find hex ≤ i := Nat.find_min' hex (by
    rcases ho : applyAt transformations i l with - | o
    · exact absurd ho hi
    · simp)
  have hmin : ∀ m, m < Nat.find hex → applyAt transformations m l = none := by
    intro m hm
    have := Nat.find_min hex hm
    rcases ho : applyAt transformations m l with - | o
    · rfl
    · rw [ho] at this
      simp at this
  obtain ⟨out, hout⟩ : ∃ out, applyAt transformations (Nat.find hex) l = some out := by
    rcases ho : applyAt transformations (Nat.find hex) l with - | o
    · rw [ho] at hk
      simp at hk
    · exact ⟨o, rfl⟩
  have hk10 : Nat.find hex ≤ 10 := by omega
  obtain ⟨hns, hnm⟩ := lineRule_not_skip hk10 hout
  exact ⟨Nat.find hex, out, hki, hout, hmin, processLine_eq_rule hns hnm hout hmin⟩

/-- Witness for C2: `link this: https://a|b` matches both link rules
(indices 4 and 5); the earlier one is applied. -/
theorem claim2_first_rule_wins_witness :
    ∃ k out, k ≤ 4 ∧
      applyAt transformations k ( "link this: https://a|b").toList = some out ∧
      (∀ m, m < k → applyAt transformations m ( "link this: https://a|b").toList = none) ∧
      processLine ( "link this: https://a|b").toList =
        (out, some (descAt transformations k)) :=
  @claim2_first_rule_wins ( "link this: https://a|b").toList 4 5 (by decide) (by decide)
    (by decide) (by decide)

/-- C3: a line that is blank or accepted by `isAlreadyMarkdown` comes out of
the transform byte-identical at its position in the output buffer, and (on a
non-degenerate buffer, where the log is rebuilt) no log entry carries its
line number. -/
theorem claim3_canonical_lines_inert (input : List Char) (p : List LogEntry) (k : Nat)
    (line : List Char) (hget : (splitNl input).get? k = some line)
    (hskip : jsTrim line = [] ∨ isAlreadyMarkdown line = true) :
    (splitNl (transformEasySyntaxToMarkdown input p).1).get? k = some line ∧
      (jsTrim input ≠ [] → ∀ e ∈ (transformEasySyntaxToMarkdown input p).2,
        e.lineNumber ≠ k + 1) := by
  by_cases hdeg : jsTrim input = []
  · constructor
    · unfold transformEasySyntaxToMarkdown
      rw [if_pos hdeg]
      exact hget
    · intro hc
      exact absurd hdeg hc
  · constructor
    · rw [transform_out_lines hdeg, List.get?_map, hget]
      simp [processLine_skip hskip]
    · intro _ e he hkk
      rw [transform_log hdeg] at he
      obtain ⟨k', l', hget', hnum, hsome, -, -⟩ := processLines_log_mem he
      rw [hnum] at hkk
      have hk' : k' = k := by omega
      subst hk'
      rw [hget'] at hget
      injection hget with hline
      subst hline
      rw [processLine_skip hskip] at hsome
      exact hsome rfl

/-- Witness for C3 on a two-line buffer whose first line is canonical. -/
theorem claim3_canonical_lines_inert_witness :
    (splitNl (transformEasySyntaxToMarkdown ( "# done\nbold this: x").toList []).1).get? 0 =
      some ( "# done").toList ∧
    ∀ e ∈ (transformEasySyntaxToMarkdown ( "# done\nbold this: x").toList []).2,
      e.lineNumber ≠ 0 + 1 :=
  ⟨(claim3_canonical_lines_inert ( "# done\nbold this: x").toList [] 0 ( "# done").toList
      (by decide) (by decide)).1,
   (claim3_canonical_lines_inert ( "# done\nbold this: x").toList [] 0 ( "# done").toList
      (by decide) (by decide)).2 (by decide)⟩

/-- C4: a (line) buffer matching exactly one LINE rule is rewritten by that
rule exactly once — the output buffer is the rule's rewrite with a single
log entry — and re-running the full transform on the output buffer leaves
it unchanged with an empty log: no rule's trigger ever matches the canonical
output the table itself produced. -/
theorem claim4_single_application {l out : List Char} {i : Nat} (p q : List LogEntry)
    (hnl : '\n' ∉ l) (hi : i ≤ 10)
    (happ : applyAt transformations i l = some out)
    (huniq : ∀ j, j ≤ 10 → j ≠ i → applyAt transformations j l = none) :
    transformEasySyntaxToMarkdown l p = (out, [⟨1, l, out, descAt transformations i⟩]) ∧
      transformEasySyntaxToMarkdown out q = (out, []) := by
  obtain ⟨hns, hnm⟩ := lineRule_not_skip hi happ
  have hmin : ∀ m, m < i → applyAt transformations m l = none := fun m hm =>
    huniq m (by omega) (by omega)
  have hpl := processLine_eq_rule hns hnm happ hmin
  obtain ⟨hfix, hots⟩ := lineRuleOut_fixed hi happ
  constructor
  · rw [transform_single hnl hns, hpl]
  · have honl : '\n' ∉ out := by
      obtain ⟨r, hrmem, happly⟩ := applyAt_mem happ
      exact applyRule_no_nl hrmem happly hnl
    rw [transform_single honl hots, hfix]

/-- Witness for C4 at `quote this: hello` (rule index 3 is the only match):
one application, then a fixed point. -/
theorem claim4_single_application_witness :
    transformEasySyntaxToMarkdown ( "quote this: hello").toList [] =
      (( "> hello").toList,
       [⟨1, ( "quote this: hello").toList, ( "> hello").toList,
         descAt transformations 3⟩]) ∧
    transformEasySyntaxToMarkdown ( "> hello").toList [] = (( "> hello").toList, []) :=
  @claim4_single_application ( "quote this: hello").toList ( "> hello").toList 3 [] []
    (by decide) (by decide) (by decide) (by decide)

/-- C5, counterexample.  The claim says a degenerate (empty or
whitespace-only) buffer comes back with an empty log.  The early return in
the code happens before `this.conversionLog = []`, so the previous call's
log survives: starting from a non-empty stored log, the log after the call
is still non-empty (the buffer itself is returned unchanged). -/
theorem claim5_counterexample :
    (transformEasySyntaxToMarkdown []
        [⟨1, ['x'], ['y'], "Bold text conversion"⟩]).2 ≠ [] ∧
    (transformEasySyntaxToMarkdown []
        [⟨1, ['x'], ['y'], "Bold text conversion"⟩]).1 = [] := by
  constructor
  · decide
  · decide

/-- C5, amended: on an empty or whitespace-only buffer the transform returns
the buffer unchanged and leaves the stored conversion log exactly as it was
(it is not reset); the log is empty only if it was empty before the call. -/
theorem claim5_degenerate_passthrough (input : List Char) (p : List LogEntry)
    (h : jsTrim input = []) : transformEasySyntaxToMarkdown input p = (input, p) := by
  unfold transformEasySyntaxToMarkdown
  rw [if_pos h]

/-- Witness for C5's amended theorem on a whitespace-only buffer and a
non-empty previous log. -/
theorem claim5_degenerate_passthrough_witness :
    transformEasySyntaxToMarkdown ( "  ").toList
        [⟨1, ['x'], ['y'], "Bold text conversion"⟩] =
      (( "  ").toList, [⟨1, ['x'], ['y'], "Bold text conversion"⟩]) :=
  claim5_degenerate_passthrough ( "  ").toList
    [⟨1, ['x'], ['y'], "Bold text conversion"⟩] (by decide)

/-- C6: a malformed, non-blank command line that matches no rule's trigger
(such as `heading 7: ...`, whose level is outside 1–6) passes through the
transform unchanged with an empty log; the transform is a total function,
so no fault is ever raised. -/
theorem claim6_malformed_passthrough (l : List Char) (p : List LogEntry) (hnl : '\n' ∉ l)
    (hns : jsTrim l ≠ []) (hnone : ∀ r ∈ transformations, r.apply l = none) :
    transformEasySyntaxToMarkdown l p = (l, []) := by
  have hpl : processLine l = (l, none) :=
    processLine_no_rule (firstApply_eq_none hnone)
  rw [transform_single hnl hns, hpl]

/-- Witness for C6 at `heading 7: still prose`: the heading level is outside
1–6 and no other trigger matches, so the line passes through. -/
theorem claim6_malformed_passthrough_witness :
    transformEasySyntaxToMarkdown ( "heading 7: still prose").toList [] =
      (( "heading 7: still prose").toList, []) :=
  claim6_malformed_passthrough ( "heading 7: still prose").toList []
    (by decide) (by decide) (by decide)

/-- C7: on a non-degenerate buffer the log length equals the number of lines
that are neither blank, nor already canonical, nor left unmatched by every
rule of the table. -/
theorem claim7_log_length (input : List Char) (p : List LogEntry) (h : jsTrim input ≠ []) :
    (transformEasySyntaxToMarkdown input p).2.length =
      ((splitNl input).filter (fun l =>
        !decide (jsTrim l = []) && !isAlreadyMarkdown l &&
          (firstApply transformations l).isSome)).length := by
  rw [transform_log_length h]
  congr 1
  apply List.filter_congr
  intro l _
  unfold processLine
  split
  · rename_i hsk
    rcases hsk with hb | hm
    · simp [hb]
    · simp [hm]
  · rename_i hsk
    rw [not_or] at hsk
    obtain ⟨h1, h2⟩ := hsk
    rcases hfa : firstApply transformations l with - | pr
    · simp [h1, h2, hfa]
    · rcases pr with ⟨o, d⟩
      simp [h1, h2, hfa]

/-- Witness for C7 on a five-line buffer with two rule hits, one blank line,
one canonical line and one unmatched line. -/
theorem claim7_log_length_witness :
    (transformEasySyntaxToMarkdown
        ( "heading 1: Hi\n\n# done\nplain prose\nbold this: x").toList []).2.length =
      ((splitNl ( "heading 1: Hi\n\n# done\nplain prose\nbold this: x").toList).filter
        (fun l => !decide (jsTrim l = []) && !isAlreadyMarkdown l &&
          (firstApply transformations l).isSome)).length :=
  claim7_log_length ( "heading 1: Hi\n\n# done\nplain prose\nbold this: x").toList []
    (by decide)

/-- C8: a command with an empty captured payload still yields the
syntactically valid empty construct: `bold this: ` becomes `****` (and is
logged as a bold conversion). -/
theorem claim8_empty_payload :
    transformEasySyntaxToMarkdown ( "bold this: ").toList [] =
      (( "****").toList,
       [⟨1, ( "bold this: ").toList, ( "****").toList, "Bold text conversion"⟩]) := by
  decide

/-- C9, counterexample.  The claim says two calls on equal buffers return
equal logs regardless of earlier calls.  On a whitespace-only buffer the
early return keeps the previous call's log, so two calls on the same buffer
with different histories observe different logs. -/
theorem claim9_counterexample :
    (transformEasySyntaxToMarkdown [' ']
        [⟨1, ['x'], ['y'], "Bold text conversion"⟩]).2 ≠
      (transformEasySyntaxToMarkdown [' '] []).2 := by
  decide

/-- C9, amended: the output string depends only on the input buffer, and on
non-degenerate buffers (where the log is rebuilt from empty) the log does
too; only the degenerate early-return path lets the previous call's log
show through. -/
theorem claim9_deterministic (input : List Char) (p q : List LogEntry) :
    (transformEasySyntaxToMarkdown input p).1 = (transformEasySyntaxToMarkdown input q).1 ∧
      (jsTrim input ≠ [] →
        (transformEasySyntaxToMarkdown input p).2 =
          (transformEasySyntaxToMarkdown input q).2) := by
  unfold transformEasySyntaxToMarkdown
  by_cases h : jsTrim input = []
  · rw [if_pos h, if_pos h]
    exact ⟨rfl, fun hc => absurd h hc⟩
  · rw [if_neg h, if_neg h]
    exact ⟨rfl, fun _ => rfl⟩

/-- Witness for C9's amended theorem: on a non-degenerate buffer both the
output and the log agree across different previous logs. -/
theorem claim9_deterministic_witness :
    (transformEasySyntaxToMarkdown ( "bold this: x").toList
        [⟨1, ['x'], ['y'], "Bold text conversion"⟩]).1 =
      (transformEasySyntaxToMarkdown ( "bold this: x").toList []).1 ∧
    (transformEasySyntaxToMarkdown ( "bold this: x").toList
        [⟨1, ['x'], ['y'], "Bold text conversion"⟩]).2 =
      (transformEasySyntaxToMarkdown ( "bold this: x").toList []).2 :=
  ⟨(claim9_deterministic ( "bold this: x").toList
      [⟨1, ['x'], ['y'], "Bold text conversion"⟩] []).1,
   (claim9_deterministic ( "bold this: x").toList
      [⟨1, ['x'], ['y'], "Bold text conversion"⟩] []).2 (by decide)⟩

/-- C10: the transform never changes the number of line-feed-separated
lines: it splits on `'\n'`, maps each line to exactly one output line (no
rewrite introduces a line feed), and rejoins with `'\n'`. -/
theorem claim10_line_count (input : List Char) (p : List LogEntry) :
    (splitNl (transformEasySyntaxToMarkdown input p).1).length =
      (splitNl input).length := by
  by_cases h : jsTrim input = []
  · unfold transformEasySyntaxToMarkdown
    rw [if_pos h]
  · rw [transform_out_lines h, List.length_map]

end Md2Html
